import Mathlib

/-!
# kilo-vim: the Normal-mode key handler, the cursor model and the command buffer

A shallow embedding of `kilo.c`.  The global `struct editorConfig E` becomes an
explicit record that every function receives and returns.  C `int` values are
`Int`, `unsigned int` values are `Nat`, a `char` is the `Int` value it promotes
to.  A function that can dereference an invalid pointer, or that can call
`exit`, returns an `Outcome`.
-/

namespace Kilo

/-! ## Defines -/

/-- The code of a character constant of the C source, as the `int` it promotes to. -/
@[reducible] def ch (c : Char) : Int := Int.ofNat c.toNat

/-- Macro `CTRL_KEY(k)`, that is `(k) & 0x1f`: on a two's-complement `int` the low
five bits are the remainder modulo 32. -/
def CTRL_KEY (k : Int) : Int := k % 32

def ST_NORMAL : Nat := 0
def ST_INSERT : Nat := 1
def ST_VISUAL : Nat := 2
def CB_LEN : Nat := 10
def DEL_KEY : Int := 1000

/-- The escape character `'\x1b'`. -/
def ESC : Int := 27

/-- Conversion of an `int` to a (signed, 8-bit) `char`, as done by the
assignment `E.cb[E.cb_i++] = c`. -/
def toChar (c : Int) : Int := (c + 128) % 256 - 128

/-! ## Data -/

/-- Struct `erow`: one line of text. -/
structure erow where
  size : Int
  chars : List Int
deriving DecidableEq, Repr

/-- Struct `editorConfig` (the terminal attributes `orig_termios` are left out:
no function below reads them).  `cb` holds the `CB_LEN` slots of `char cb[CB_LEN]`, a
slot being read with `List.getD` and written with `List.set`; `row` is the heap array
of `numrows` rows. -/
structure editorConfig where
  state : Nat
  cb : List Int
  cb_i : Nat
  cx : Int
  cy : Int
  coloff : Int
  rowoff : Int
  prevColoff : Int
  screenrows : Int
  screencols : Int
  numrows : Int
  row : List erow
deriving DecidableEq, Repr

/-- An observable action of the process, in program order. -/
inductive Effect where
  | write (fd : Nat) (bytes : List Int)
  | exit (status : Int)
deriving DecidableEq, Repr

/-- How a call ends: it returns `v` in state `E`; or the process terminates after
performing `trace`; or it reads memory through an invalid pointer or index
(`fault`, undefined behaviour in C). -/
inductive Outcome (α : Type) where
  | ret (v : α) (E : editorConfig)
  | halt (trace : List Effect)
  | fault
deriving DecidableEq, Repr

/-- A value of type `erow *` pointing into `E.row`: `none` is `NULL`, `some i` is
`&E.row[i]`. -/
abbrev RowPtr := Option Int

/-- The expression `(E.cy >= E.numrows) ? NULL : &E.row[E.cy]`. -/
def currentRow (E : editorConfig) : RowPtr :=
  if E.cy ≥ E.numrows then none else some E.cy

/-- Reading through a row pointer: `none` when the pointer is `NULL` or does not
point at an element of `E.row`. -/
def deref (E : editorConfig) (p : RowPtr) : Option erow :=
  match p with
  | none => none
  | some i => if 0 ≤ i then E.row[i.toNat]? else none

def clearControlBuffer (E : editorConfig) : Int × editorConfig :=
  (0, { E with cb_i := 0, cb := E.cb.set 0 0 })

/-! ## Terminal -/

/-- The two writes of `clearScreen`: `"\x1b[2J"` and `"\x1b[H"` on standard output. -/
def clearScreen : List Effect :=
  [Effect.write 1 [ESC, ch '[', ch '2', ch 'J'], Effect.write 1 [ESC, ch '[', ch 'H']]

/-! ## Row operations, file i/o, init -/

def editorAppendRow (s : List Int) (E : editorConfig) : editorConfig :=
  { E with row := E.row ++ [{ size := s.length, chars := s }], numrows := E.numrows + 1 }

/-- The inner loop of `editorOpen` that drops trailing `'\n'` and `'\r'` from a line. -/
def stripEol (line : List Int) : List Int :=
  (line.reverse.dropWhile (fun b => b == 10 || b == 13)).reverse

/-- Function `editorOpen`, given the lines that `getline` yields. -/
def editorOpen (lines : List (List Int)) (E : editorConfig) : editorConfig :=
  lines.foldl (fun E line => editorAppendRow (stripEol line) E) E

/-- Function `initEditor`, given the window size that `getWindowSize` reports.  The
global `E` is zero-initialised, so all ten slots of `cb` start as `'\0'`. -/
def initEditor (screenrows screencols : Int) : editorConfig :=
  { state := ST_NORMAL, cb := List.replicate CB_LEN 0, cb_i := 0, cx := 0, cy := 0,
    coloff := 0, rowoff := 0, prevColoff := 0, screenrows := screenrows,
    screencols := screencols, numrows := 0, row := [] }

/-- The state in which `main` enters its loop: `initEditor`, then `editorOpen` when a
file was named (`lines = []` when none was, or when the file is empty). -/
def startup (lines : List (List Int)) (screenrows screencols : Int) : editorConfig :=
  editorOpen lines (initEditor screenrows screencols)

/-! ## Output -/

def editorScroll (E : editorConfig) : editorConfig :=
  let E1 :=
    if E.cy < E.rowoff then { E with rowoff := E.cy }
    else if E.cy ≥ E.rowoff + E.screenrows - 2 then { E with rowoff := E.cy - E.screenrows + 3 }
    else E
  if E1.cx < E1.coloff then { E1 with coloff := E1.cx }
  else if E1.cx ≥ E1.coloff + E1.screencols then { E1 with coloff := E1.cx - E1.screencols + 1 }
  else E1

/-! ## Input -/

def adjustPrevCol (prevRow : RowPtr) (E : editorConfig) : Option editorConfig :=
  let row := currentRow E
  -- int rowlen = row ? row->size : 0;
  let rowlen? : Option Int :=
    match row with
    | none => some 0
    | some i => (deref E (some i)).map (fun r => r.size)
  match rowlen?, deref E prevRow with
  | some rowlen, some prev =>
    if prev.size < rowlen ∧ prev.size < E.prevColoff then
      if rowlen > E.prevColoff then some { E with cx := E.prevColoff }
      else some { E with cx := rowlen - 1 }
    else if E.cx ≥ rowlen then some { E with cx := rowlen - 1 }
    else some E
  | _, _ => none

/-- The tail shared by the vertical motions: `adjustPrevCol(row); return clearControlBuffer();`. -/
def adjustThenClear (prevRow : RowPtr) (E : editorConfig) : Outcome Int :=
  match adjustPrevCol prevRow E with
  | none => Outcome.fault
  | some E1 => Outcome.ret (clearControlBuffer E1).1 (clearControlBuffer E1).2

/-- The statement `if (E.cb_i < CB_LEN - 1) { E.cb[E.cb_i++] = c; E.cb[E.cb_i] = '\0'; }`. -/
def appendKey (c : Int) (E : editorConfig) : editorConfig :=
  if E.cb_i < CB_LEN - 1 then
    { E with cb := (E.cb.set E.cb_i (toChar c)).set (E.cb_i + 1) 0, cb_i := E.cb_i + 1 }
  else E

/-- The second `switch` of `editorProcessNormalKeypress`, on `E.cb[E.cb_i - 1]`, and
the two statements after it.  `cb_i` is a 32-bit unsigned, so `E.cb_i - 1` wraps to
`UINT_MAX` at zero; an index outside the ten slots of `cb` is an invalid read. -/
def suffixSwitch (E : editorConfig) : Outcome Int :=
  let idx := if E.cb_i = 0 then 4294967295 else E.cb_i - 1
  if idx < CB_LEN then
    let last := E.cb.getD idx 0
    if last = ch ':' then
      Outcome.ret 0 { E with cb_i := 1, cb := (E.cb.set 0 (ch ':')).set 1 0 }
    else if last = 10 ∨ last = 13 then
      if E.cb.getD 0 0 = ch ':' ∧ E.cb.getD 1 0 = ch 'q' then
        Outcome.halt (clearScreen ++ [Effect.exit 0])
      else Outcome.ret (clearControlBuffer E).1 (clearControlBuffer E).2
    else if E.cb_i = CB_LEN - 1 then Outcome.ret (clearControlBuffer E).1 (clearControlBuffer E).2
    else Outcome.ret 1 E
  else Outcome.fault

def editorProcessNormalKeypress (c : Int) (E₀ : editorConfig) : Outcome Int :=
  let row := currentRow E₀
  let E := appendKey c E₀
  let c0 := E.cb.getD 0 0
  if c0 = ch 'g' then
    if E.cb.getD 1 0 = ch 'g' then adjustThenClear row { E with cy := 0 }
    else suffixSwitch E
  else if c0 = ch 'G' then adjustThenClear row { E with cy := E.numrows - 1 }
  else if c0 = ch 'h' then
    let E1 := if E.cx > 0 then { E with cx := E.cx - 1, prevColoff := E.cx - 1 } else E
    Outcome.ret (clearControlBuffer E1).1 (clearControlBuffer E1).2
  else if c0 = ch 'i' then
    Outcome.ret (clearControlBuffer { E with state := ST_INSERT }).1
      (clearControlBuffer { E with state := ST_INSERT }).2
  else if c0 = ch 'j' then
    adjustThenClear row (if E.cy < E.numrows - 1 then { E with cy := E.cy + 1 } else E)
  else if c0 = ch 'k' then
    adjustThenClear row (if E.cy > 0 then { E with cy := E.cy - 1 } else E)
  else if c0 = ch 'l' then
    -- if (row && E.cx < row->size)
    match row with
    | none => Outcome.ret (clearControlBuffer E).1 (clearControlBuffer E).2
    | some i =>
      match deref E (some i) with
      | none => Outcome.fault
      | some r =>
        let E1 := if E.cx < r.size then { E with cx := E.cx + 1, prevColoff := E.cx + 1 } else E
        Outcome.ret (clearControlBuffer E1).1 (clearControlBuffer E1).2
  else suffixSwitch E

/-- Function `editorProcessKeypress`, given the key `c` that `editorReadKey` returned. -/
def editorProcessKeypress (c : Int) (E : editorConfig) : Outcome Unit :=
  let after : Outcome Int :=
    if E.state = ST_NORMAL then editorProcessNormalKeypress c E else Outcome.ret 0 E
  match after with
  | Outcome.ret _ E1 =>
    Outcome.ret ()
      (if c = ESC ∨ c = CTRL_KEY (ch 'C') ∨ c = CTRL_KEY (ch '[') then { E1 with state := ST_NORMAL }
       else E1)
  | Outcome.halt t => Outcome.halt t
  | Outcome.fault => Outcome.fault

/-- Keys fed one at a time to `editorProcessNormalKeypress`; stops at the first call
that does not return. -/
def feedNormal : List Int → editorConfig → Outcome Unit
  | [], E => Outcome.ret () E
  | c :: cs, E =>
    match editorProcessNormalKeypress c E with
    | Outcome.ret _ E1 => feedNormal cs E1
    | Outcome.halt t => Outcome.halt t
    | Outcome.fault => Outcome.fault

/-- One round of the loop of `main` (with `DEBUG` off): `editorRefreshScreen`, whose
only change to `E` is `editorScroll`, then `editorProcessKeypress` on the key read. -/
def mainStep (c : Int) (E : editorConfig) : Outcome Unit :=
  editorProcessKeypress c (editorScroll E)

/-- The loop of `main` on a finite list of keys. -/
def mainLoop : List Int → editorConfig → Outcome Unit
  | [], E => Outcome.ret () E
  | c :: cs, E =>
    match mainStep c E with
    | Outcome.ret _ E1 => mainLoop cs E1
    | Outcome.halt t => Outcome.halt t
    | Outcome.fault => Outcome.fault

/-! ## Specification-side definitions -/

/-- Clamp `x` to the interval `[lo, hi]`. -/
def clampTo (lo hi x : Int) : Int := max lo (min hi x)

/-- Number of `l` keys minus number of `h` keys in a key sequence. -/
def netHL (keys : List Int) : Int :=
  Int.ofNat (keys.count (ch 'l')) - Int.ofNat (keys.count (ch 'h'))

/-- One `h` or `l` key on a row of length `L`, clamping straight away. -/
def hlStep (L : Int) (c : Int) (k : Int) : Int :=
  if k = ch 'h' then clampTo 0 L (c - 1) else clampTo 0 L (c + 1)

/-- The column after a sequence of `h`/`l` keys when every single key clamps to `[0, L]`. -/
def hlWalk (L : Int) (c0 : Int) (keys : List Int) : Int := keys.foldl (hlStep L) c0

/-- The column that `adjustPrevCol` leaves, as a function of the size `p` of the row left,
the size `L` of the row reached, the sticky column `s` and the column `cx` before. -/
def adjCol (p L s cx : Int) : Int :=
  if p < L ∧ p < s then (if L > s then s else L - 1)
  else if cx ≥ L then L - 1 else cx

/-- The four vertical motions, as key sequences: `j`, `k`, `gg` and `G`. -/
def verticalMotions : List (List Int) := [[ch 'j'], [ch 'k'], [ch 'g', ch 'g'], [ch 'G']]

/-- The row a vertical motion moves the cursor to, read off the assignments to `E.cy`
in `editorProcessNormalKeypress`. -/
def landingRow (E : editorConfig) (m : List Int) : Int :=
  if m = [ch 'j'] then (if E.cy < E.numrows - 1 then E.cy + 1 else E.cy)
  else if m = [ch 'k'] then (if E.cy > 0 then E.cy - 1 else E.cy)
  else if m = [ch 'g', ch 'g'] then 0
  else E.numrows - 1

/-- The first buffered characters on which the first `switch` of
`editorProcessNormalKeypress` returns whatever follows: `G`, `h`, `i`, `j`, `k`, `l`. -/
def prefixKey (c : Int) : Prop :=
  c = ch 'G' ∨ c = ch 'h' ∨ c = ch 'i' ∨ c = ch 'j' ∨ c = ch 'k' ∨ c = ch 'l'

instance (c : Int) : Decidable (prefixKey c) := by unfold prefixKey; infer_instance

/-- A command buffer as it stands between two keys: ten slots, at most eight buffered
keys, the terminator `'\0'` after them, and, when keys are buffered, a first key on which
the first `switch` does not return (`g` not followed by `g`, or none of its cases). -/
def CbPending (E : editorConfig) : Prop :=
  E.cb.length = CB_LEN ∧ E.cb_i ≤ 8 ∧ E.cb.getD E.cb_i 0 = 0 ∧
  (1 ≤ E.cb_i → ¬ prefixKey (E.cb.getD 0 0) ∧
    (E.cb.getD 0 0 = ch 'g' → E.cb.getD 1 0 ≠ ch 'g'))

instance (E : editorConfig) : Decidable (CbPending E) := by unfold CbPending; infer_instance

/-- A state the program can be in when it waits for a key: the loop of `main` has run on
some keys from some startup state and has not stopped. -/
def Reachable (E : editorConfig) : Prop :=
  ∃ (keys : List Int) (lines : List (List Int)) (sr sc : Int),
    mainLoop keys (startup lines sr sc) = Outcome.ret () E

/-- A state the program reaches from the one-row file `a` by the keys `1`, `g`: the buffer
holds the unrecognised prefix `1g`. -/
def pendingState : editorConfig :=
  { startup [[ch 'a']] 24 80 with cb := [ch '1', ch 'g', 0, 0, 0, 0, 0, 0, 0, 0], cb_i := 2 }

/-- The one-row file `a` in Insert mode. -/
def insertState : editorConfig := { startup [[ch 'a']] 24 80 with state := ST_INSERT }

/-- The two-row file `abc`, `abcdef` with the cursor at `(0, 0)` and the sticky column 2. -/
def stickyState : editorConfig :=
  { startup [[ch 'a', ch 'b', ch 'c'], [ch 'a', ch 'b', ch 'c', ch 'd', ch 'e', ch 'f']] 24 80
    with prevColoff := 2 }

/-- The two-row file `abc`, `abcdef` with the cursor at `(2, 0)` and the sticky column 2, as
after the keys `l`, `l`. -/
def stickyState2 : editorConfig :=
  { startup [[ch 'a', ch 'b', ch 'c'], [ch 'a', ch 'b', ch 'c', ch 'd', ch 'e', ch 'f']] 24 80
    with cx := 2, prevColoff := 2 }

/-- The cursor column agrees with the sticky column `prevColoff` on a row of size `L`: it
is the sticky column when the row is longer than it, the last index of the row when the
row is shorter. -/
def Coherent (E : editorConfig) (L : Int) : Prop :=
  (E.prevColoff < L ∧ E.cx = E.prevColoff) ∨ (L < E.prevColoff ∧ E.cx = L - 1)

instance (E : editorConfig) (L : Int) : Decidable (Coherent E L) := by
  unfold Coherent; infer_instance

/-- The cursor row is a row of the row store: `numrows` counts the rows and
`0 ≤ cy ≤ numrows - 1` (so the row store is not empty). -/
def RowInv (E : editorConfig) : Prop :=
  E.numrows = Int.ofNat E.row.length ∧ 0 ≤ E.cy ∧ E.cy ≤ E.numrows - 1

instance (E : editorConfig) : Decidable (RowInv E) := by unfold RowInv; infer_instance

/-- The values `editorReadKey` can return: a `char` (signed or unsigned) or `DEL_KEY`. -/
def readableKey (c : Int) : Prop := (-128 ≤ c ∧ c ≤ 255) ∨ c = DEL_KEY

instance (c : Int) : Decidable (readableKey c) := by unfold readableKey; infer_instance

/-- The one-row file `a` with the colon-command `:w` in the buffer. -/
def colonState : editorConfig :=
  { startup [[ch 'a']] 24 80 with cb := [ch ':', ch 'w', 0, 0, 0, 0, 0, 0, 0, 0], cb_i := 2 }

/-- The one-row file `a` with eight digits in the buffer. -/
def fullState : editorConfig :=
  { startup [[ch 'a']] 24 80 with
    cb := [ch '1', ch '2', ch '3', ch '4', ch '5', ch '6', ch '7', ch '8', 0, 0], cb_i := 8 }

/-- The one-row file `a` with the lone `g` in the buffer. -/
def gState : editorConfig :=
  { startup [[ch 'a']] 24 80 with cb := [ch 'g', 0, 0, 0, 0, 0, 0, 0, 0, 0], cb_i := 1 }

/-- The one-row file `a` with the colon-command `:qx` in the buffer. -/
def quitState : editorConfig :=
  { startup [[ch 'a']] 24 80 with cb := [ch ':', ch 'q', ch 'x', 0, 0, 0, 0, 0, 0, 0], cb_i := 3 }

/-- The one-row file `a` with the colon-command `:wq` in the buffer. -/
def writeQuitState : editorConfig :=
  { startup [[ch 'a']] 24 80 with cb := [ch ':', ch 'w', ch 'q', 0, 0, 0, 0, 0, 0, 0], cb_i := 3 }

/-! ## Helper lemmas -/

theorem cb_ten {l : List Int} (h : l.length = CB_LEN) :
    ∃ a0 a1 a2 a3 a4 a5 a6 a7 a8 a9, l = [a0, a1, a2, a3, a4, a5, a6, a7, a8, a9] := by
  match l, h with
  | [a0, a1, a2, a3, a4, a5, a6, a7, a8, a9], _ => exact ⟨a0, a1, a2, a3, a4, a5, a6, a7, a8, a9, rfl⟩

/-- The `h` key on an empty buffer. -/
theorem normal_h (E : editorConfig) (hlen : E.cb.length = CB_LEN) (hi : E.cb_i = 0) :
    editorProcessNormalKeypress (ch 'h') E =
      Outcome.ret 0 { E with cb := ((E.cb.set 0 (ch 'h')).set 1 0).set 0 0, cb_i := 0,
                             cx := if E.cx > 0 then E.cx - 1 else E.cx,
                             prevColoff := if E.cx > 0 then E.cx - 1 else E.prevColoff } := by
  obtain ⟨a0, a1, a2, a3, a4, a5, a6, a7, a8, a9, hcb⟩ := cb_ten hlen
  rcases E with ⟨st, cb, cbi, cx, cy, co, ro, pc, sr, sc, nr, rows⟩
  simp only at hcb hi
  subst hcb hi
  by_cases h : cx > 0 <;>
  simp [editorProcessNormalKeypress, appendKey, CB_LEN, toChar, clearControlBuffer, h]

/-- The `l` key on an empty buffer, with the cursor on an existing row. -/
theorem normal_l (E : editorConfig) (r : erow) (hlen : E.cb.length = CB_LEN) (hi : E.cb_i = 0)
    (hrow : deref E (currentRow E) = some r) :
    editorProcessNormalKeypress (ch 'l') E =
      Outcome.ret 0 { E with cb := ((E.cb.set 0 (ch 'l')).set 1 0).set 0 0, cb_i := 0,
                             cx := if E.cx < r.size then E.cx + 1 else E.cx,
                             prevColoff := if E.cx < r.size then E.cx + 1 else E.prevColoff } := by
  obtain ⟨a0, a1, a2, a3, a4, a5, a6, a7, a8, a9, hcb⟩ := cb_ten hlen
  rcases E with ⟨st, cb, cbi, cx, cy, co, ro, pc, sr, sc, nr, rows⟩
  simp only at hcb hi
  subst hcb hi
  unfold currentRow at hrow
  simp only at hrow
  by_cases hc : cy ≥ nr
  · simp [hc, deref] at hrow
  · simp only [hc, if_false, deref] at hrow
    by_cases h : cx < r.size <;>
    simp [editorProcessNormalKeypress, appendKey, CB_LEN, toChar, clearControlBuffer, h, currentRow,
      hc, deref, hrow]


theorem clampTo_bounds (L x : Int) (hL : 0 ≤ L) : 0 ≤ clampTo 0 L x ∧ clampTo 0 L x ≤ L := by
  unfold clampTo; omega

theorem hlWalk_bounds (L : Int) (keys : List Int) :
    ∀ c0 : Int, 0 ≤ c0 → c0 ≤ L → 0 ≤ hlWalk L c0 keys ∧ hlWalk L c0 keys ≤ L := by
  induction keys with
  | nil => intro c0 h0 h1; exact ⟨h0, h1⟩
  | cons k ks ih =>
    intro c0 h0 h1
    have hL : 0 ≤ L := le_trans h0 h1
    have hs : 0 ≤ hlStep L c0 k ∧ hlStep L c0 k ≤ L := by
      unfold hlStep; split <;> exact clampTo_bounds L _ hL
    simpa [hlWalk] using ih (hlStep L c0 k) hs.1 hs.2

theorem netHL_cons_h (ks : List Int) : netHL (ch 'h' :: ks) = netHL ks - 1 := by
  simp [netHL, List.count_cons]; omega

theorem netHL_cons_l (ks : List Int) : netHL (ch 'l' :: ks) = netHL ks + 1 := by
  simp [netHL, List.count_cons]; omega

/-- When no prefix of the key sequence takes the running sum outside `[0, L]`, clamping
after every key gives the plain sum. -/
theorem hlWalk_unclamped (L : Int) (keys : List Int) :
    ∀ c0 : Int, (∀ k ∈ keys, k = ch 'h' ∨ k = ch 'l') →
      (∀ n : Nat, 0 ≤ c0 + netHL (keys.take n) ∧ c0 + netHL (keys.take n) ≤ L) →
      hlWalk L c0 keys = c0 + netHL keys := by
  induction keys with
  | nil => intro c0 _ _; simp [hlWalk, netHL]
  | cons k ks ih =>
    intro c0 hk hpre
    have h1 := hpre 1
    have hks : ∀ k ∈ ks, k = ch 'h' ∨ k = ch 'l' := fun x hx => hk x (List.mem_cons_of_mem _ hx)
    rcases hk k (List.mem_cons_self _ _) with rfl | rfl
    · simp only [List.take_succ_cons, List.take_zero, netHL_cons_h] at h1
      have h1' : netHL [] = 0 := by simp [netHL]
      have hstep : hlStep L c0 (ch 'h') = c0 - 1 := by
        simp only [hlStep, clampTo, if_true]; omega
      have := ih (c0 - 1) hks (fun n => by
        have := hpre (n + 1)
        simp only [List.take_succ_cons, netHL_cons_h] at this
        constructor <;> omega)
      simp only [hlWalk, List.foldl_cons, hstep, netHL_cons_h] at this ⊢
      rw [this]; ring
    · simp only [List.take_succ_cons, List.take_zero, netHL_cons_l] at h1
      have h1' : netHL [] = 0 := by simp [netHL]
      have hstep : hlStep L c0 (ch 'l') = c0 + 1 := by
        have hne : ch 'l' ≠ ch 'h' := by decide
        simp only [hlStep, clampTo, if_neg hne]; omega
      have := ih (c0 + 1) hks (fun n => by
        have := hpre (n + 1)
        simp only [List.take_succ_cons, netHL_cons_l] at this
        constructor <;> omega)
      simp only [hlWalk, List.foldl_cons, hstep, netHL_cons_l] at this ⊢
      rw [this]; ring

/-- A sequence of `h`/`l` keys from an empty buffer returns, and the column it leaves is the
one obtained by clamping after every key. -/
theorem feed_hl (keys : List Int) :
    ∀ (E : editorConfig) (r : erow), E.cb.length = CB_LEN → E.cb_i = 0 →
      deref E (currentRow E) = some r → 0 ≤ E.cx → E.cx ≤ r.size →
      (∀ k ∈ keys, k = ch 'h' ∨ k = ch 'l') →
      ∃ E', feedNormal keys E = Outcome.ret () E' ∧ E'.cx = hlWalk r.size E.cx keys := by
  induction keys with
  | nil => intro E r _ _ _ _ _ _; exact ⟨E, rfl, rfl⟩
  | cons k ks ih =>
    intro E r hlen hi hrow h0 h1 hk
    have hks : ∀ k ∈ ks, k = ch 'h' ∨ k = ch 'l' := fun x hx => hk x (List.mem_cons_of_mem _ hx)
    rcases hk k (List.mem_cons_self _ _) with rfl | rfl
    · have hstep : hlStep r.size E.cx (ch 'h') = (if E.cx > 0 then E.cx - 1 else E.cx) := by
        simp only [hlStep, clampTo, if_true]; split <;> omega
      obtain ⟨E', hfeed, hcx⟩ := ih
        { E with cb := ((E.cb.set 0 (ch 'h')).set 1 0).set 0 0, cb_i := 0,
                 cx := if E.cx > 0 then E.cx - 1 else E.cx,
                 prevColoff := if E.cx > 0 then E.cx - 1 else E.prevColoff } r
        (by simpa using hlen) rfl (by simpa [deref, currentRow] using hrow)
        (by show 0 ≤ (if E.cx > 0 then E.cx - 1 else E.cx); split <;> omega)
        (by show (if E.cx > 0 then E.cx - 1 else E.cx) ≤ r.size; split <;> omega) hks
      refine ⟨E', ?_, ?_⟩
      · simp only [feedNormal, normal_h E hlen hi]; exact hfeed
      · rw [hcx]; simp only [hlWalk, List.foldl_cons, hstep]
    · have hstep : hlStep r.size E.cx (ch 'l') = (if E.cx < r.size then E.cx + 1 else E.cx) := by
        have hne : ch 'l' ≠ ch 'h' := by decide
        simp only [hlStep, clampTo, if_neg hne]; split <;> omega
      obtain ⟨E', hfeed, hcx⟩ := ih
        { E with cb := ((E.cb.set 0 (ch 'l')).set 1 0).set 0 0, cb_i := 0,
                 cx := if E.cx < r.size then E.cx + 1 else E.cx,
                 prevColoff := if E.cx < r.size then E.cx + 1 else E.prevColoff } r
        (by simpa using hlen) rfl (by simpa [deref, currentRow] using hrow)
        (by show 0 ≤ (if E.cx < r.size then E.cx + 1 else E.cx); split <;> omega)
        (by show (if E.cx < r.size then E.cx + 1 else E.cx) ≤ r.size; split <;> omega) hks
      refine ⟨E', ?_, ?_⟩
      · simp only [feedNormal, normal_l E r hlen hi hrow]; exact hfeed
      · rw [hcx]; simp only [hlWalk, List.foldl_cons, hstep]

/-! ## C1: horizontal motion -/

/-- C1, as stated, fails: on the one-row file `ab` with the cursor at column 0, the keys
`h`, `l` leave the cursor at column 1, while the starting column plus the number of `l`
minus the number of `h`, clamped to `[0, 2]`, is 0. -/
theorem C1_counterexample :
    (startup [[ch 'a', ch 'b']] 24 80).cb_i = 0 ∧
    deref (startup [[ch 'a', ch 'b']] 24 80) (currentRow (startup [[ch 'a', ch 'b']] 24 80))
      = some { size := 2, chars := [ch 'a', ch 'b'] } ∧
    (startup [[ch 'a', ch 'b']] 24 80).cx = 0 ∧
    feedNormal [ch 'h', ch 'l'] (startup [[ch 'a', ch 'b']] 24 80)
      = Outcome.ret () { startup [[ch 'a', ch 'b']] 24 80 with cx := 1, prevColoff := 1 } ∧
    clampTo 0 2 ((startup [[ch 'a', ch 'b']] 24 80).cx + netHL [ch 'h', ch 'l']) = 0 := by
  refine ⟨by decide, by decide, by decide, by decide, by decide⟩

/-- C1 (amended): for a state with an empty command buffer whose cursor is on an existing
row of length `L` at a column `c0` in `[0, L]`, every sequence of `h`/`l` keys fed one at a
time to `editorProcessNormalKeypress` returns, and the final column is the one obtained by
clamping to `[0, L]` after every key; it lies in `[0, L]`, and it equals `c0` plus the
number of `l` minus the number of `h` whenever no prefix of the sequence takes that sum
outside `[0, L]`. -/
theorem C1_hl_clamped_after_every_key (E : editorConfig) (r : erow) (keys : List Int)
    (hlen : E.cb.length = CB_LEN) (hi : E.cb_i = 0)
    (hrow : deref E (currentRow E) = some r) (h0 : 0 ≤ E.cx) (h1 : E.cx ≤ r.size)
    (hk : ∀ k ∈ keys, k = ch 'h' ∨ k = ch 'l') :
    ∃ E', feedNormal keys E = Outcome.ret () E' ∧
      E'.cx = hlWalk r.size E.cx keys ∧ 0 ≤ E'.cx ∧ E'.cx ≤ r.size ∧
      ((∀ n : Nat, 0 ≤ E.cx + netHL (keys.take n) ∧ E.cx + netHL (keys.take n) ≤ r.size) →
        E'.cx = E.cx + netHL keys) := by
  obtain ⟨E', hfeed, hcx⟩ := feed_hl keys E r hlen hi hrow h0 h1 hk
  have hb := hlWalk_bounds r.size keys E.cx h0 h1
  refine ⟨E', hfeed, hcx, ?_, ?_, ?_⟩
  · rw [hcx]; exact hb.1
  · rw [hcx]; exact hb.2
  · intro hpre
    rw [hcx]; exact hlWalk_unclamped r.size keys E.cx hk hpre

/-- C1 (amended) at the file `ab`, cursor at column 0, keys `h`, `l`, `l`, `l`. -/
theorem C1_hl_clamped_after_every_key_witness :
    ∃ E', feedNormal [ch 'h', ch 'l', ch 'l', ch 'l'] (startup [[ch 'a', ch 'b']] 24 80)
        = Outcome.ret () E' ∧
      E'.cx = hlWalk 2 0 [ch 'h', ch 'l', ch 'l', ch 'l'] ∧ 0 ≤ E'.cx ∧ E'.cx ≤ 2 ∧
      ((∀ n : Nat, 0 ≤ 0 + netHL ([ch 'h', ch 'l', ch 'l', ch 'l'].take n) ∧
          0 + netHL ([ch 'h', ch 'l', ch 'l', ch 'l'].take n) ≤ 2) →
        E'.cx = 0 + netHL [ch 'h', ch 'l', ch 'l', ch 'l']) :=
  C1_hl_clamped_after_every_key (startup [[ch 'a', ch 'b']] 24 80)
    { size := 2, chars := [ch 'a', ch 'b'] } [ch 'h', ch 'l', ch 'l', ch 'l']
    (by decide) (by decide) (by decide) (by decide) (by decide) (by decide)

/-! ## Vertical motion -/

theorem currentRow_of_deref {E : editorConfig} {r : erow}
    (h : deref E (currentRow E) = some r) : currentRow E = some E.cy ∧ 0 ≤ E.cy ∧ E.cy < E.numrows := by
  unfold currentRow at h ⊢
  by_cases hc : E.cy ≥ E.numrows
  · simp [hc, deref] at h
  · simp only [hc, if_false, deref] at h ⊢
    by_cases h0 : 0 ≤ E.cy
    · exact ⟨trivial, h0, by omega⟩
    · simp [h0] at h

/-- In a row store whose `numrows` counts its rows, every index in range is a row. -/
theorem deref_exists (E : editorConfig) (i : Int) (hn : E.numrows = Int.ofNat E.row.length)
    (h0 : 0 ≤ i) (h1 : i < E.numrows) : ∃ r, deref E (some i) = some r := by
  have hlt : i.toNat < E.row.length := by
    have : (Int.ofNat E.row.length) = (E.row.length : Int) := rfl
    omega
  exact ⟨E.row[i.toNat], by simp [deref, h0, List.getElem?_eq_getElem hlt]⟩

theorem adjustThenClear_eq (E : editorConfig) (prevRow : RowPtr) (prev r : erow)
    (hprev : deref E prevRow = some prev) (hcur : deref E (currentRow E) = some r) :
    adjustThenClear prevRow E =
      Outcome.ret 0 { E with cx := adjCol prev.size r.size E.prevColoff E.cx,
                             cb_i := 0, cb := E.cb.set 0 0 } := by
  have hcr := (currentRow_of_deref hcur).1
  rw [hcr] at hcur
  unfold adjustThenClear adjustPrevCol
  simp only [hcr, hcur, hprev, Option.map_some', adjCol, clearControlBuffer]
  split_ifs <;> rfl

/-- Reading a row depends on the row array only. -/
theorem deref_row_eq (E E' : editorConfig) (p : RowPtr) (h : E'.row = E.row) :
    deref E' p = deref E p := by
  cases p <;> simp [deref, h]

theorem currentRow_eq_some (E : editorConfig) (h : E.cy < E.numrows) : currentRow E = some E.cy := by
  unfold currentRow; simp; omega

/-- The `j` key on an empty buffer, with the cursor on an existing row `prev`, where `r` is
the row the cursor moves to. -/
theorem normal_j (E : editorConfig) (prev r : erow) (hlen : E.cb.length = CB_LEN) (hi : E.cb_i = 0)
    (hprev : deref E (currentRow E) = some prev)
    (hnew : deref E (some (if E.cy < E.numrows - 1 then E.cy + 1 else E.cy)) = some r) :
    editorProcessNormalKeypress (ch 'j') E =
      Outcome.ret 0 { E with cb := ((E.cb.set 0 (ch 'j')).set 1 0).set 0 0, cb_i := 0,
                             cy := if E.cy < E.numrows - 1 then E.cy + 1 else E.cy,
                             cx := adjCol prev.size r.size E.prevColoff E.cx } := by
  obtain ⟨hcr, hcy0, hcy1⟩ := currentRow_of_deref hprev
  obtain ⟨a0, a1, a2, a3, a4, a5, a6, a7, a8, a9, hcb⟩ := cb_ten hlen
  rcases E with ⟨st, cb, cbi, cx, cy, co, ro, pc, sr, sc, nr, rows⟩
  simp only at hcb hi hcy0 hcy1 hnew
  subst hcb hi
  simp only [editorProcessNormalKeypress, appendKey, CB_LEN, toChar]
  by_cases h : cy < nr - 1
  · simp only [h, if_true] at hnew
    simp [h]
    rw [adjustThenClear_eq _ _ prev r (by rw [← hprev]; exact deref_row_eq _ _ _ rfl)
      (by rw [currentRow_eq_some _ (by show cy + 1 < nr; omega), ← hnew]; exact deref_row_eq _ _ _ rfl)]
    simp
  · simp only [h, if_false] at hnew
    simp [h]
    rw [adjustThenClear_eq _ _ prev r (by rw [← hprev]; exact deref_row_eq _ _ _ rfl)
      (by rw [currentRow_eq_some _ (by show cy < nr; omega), ← hnew]; exact deref_row_eq _ _ _ rfl)]
    simp

/-- The `k` key on an empty buffer, with the cursor on an existing row `prev`, where `r` is
the row the cursor moves to. -/
theorem normal_k (E : editorConfig) (prev r : erow) (hlen : E.cb.length = CB_LEN) (hi : E.cb_i = 0)
    (hprev : deref E (currentRow E) = some prev)
    (hnew : deref E (some (if E.cy > 0 then E.cy - 1 else E.cy)) = some r) :
    editorProcessNormalKeypress (ch 'k') E =
      Outcome.ret 0 { E with cb := ((E.cb.set 0 (ch 'k')).set 1 0).set 0 0, cb_i := 0,
                             cy := if E.cy > 0 then E.cy - 1 else E.cy,
                             cx := adjCol prev.size r.size E.prevColoff E.cx } := by
  obtain ⟨hcr, hcy0, hcy1⟩ := currentRow_of_deref hprev
  obtain ⟨a0, a1, a2, a3, a4, a5, a6, a7, a8, a9, hcb⟩ := cb_ten hlen
  rcases E with ⟨st, cb, cbi, cx, cy, co, ro, pc, sr, sc, nr, rows⟩
  simp only at hcb hi hcy0 hcy1 hnew
  subst hcb hi
  simp only [editorProcessNormalKeypress, appendKey, CB_LEN, toChar]
  by_cases h : cy > 0
  · simp only [h, if_true] at hnew
    simp [h]
    rw [adjustThenClear_eq _ _ prev r (by rw [← hprev]; exact deref_row_eq _ _ _ rfl)
      (by rw [currentRow_eq_some _ (by show cy - 1 < nr; omega), ← hnew]; exact deref_row_eq _ _ _ rfl)]
    simp
  · simp only [h, if_false] at hnew
    simp [h]
    rw [adjustThenClear_eq _ _ prev r (by rw [← hprev]; exact deref_row_eq _ _ _ rfl)
      (by rw [currentRow_eq_some _ (by show cy < nr; omega), ← hnew]; exact deref_row_eq _ _ _ rfl)]
    simp

/-- The `G` key on an empty buffer, with the cursor on an existing row `prev`, where `r` is
the last row. -/
theorem normal_G (E : editorConfig) (prev r : erow) (hlen : E.cb.length = CB_LEN) (hi : E.cb_i = 0)
    (hprev : deref E (currentRow E) = some prev)
    (hnew : deref E (some (E.numrows - 1)) = some r) :
    editorProcessNormalKeypress (ch 'G') E =
      Outcome.ret 0 { E with cb := ((E.cb.set 0 (ch 'G')).set 1 0).set 0 0, cb_i := 0,
                             cy := E.numrows - 1,
                             cx := adjCol prev.size r.size E.prevColoff E.cx } := by
  obtain ⟨a0, a1, a2, a3, a4, a5, a6, a7, a8, a9, hcb⟩ := cb_ten hlen
  rcases E with ⟨st, cb, cbi, cx, cy, co, ro, pc, sr, sc, nr, rows⟩
  simp only at hcb hi hnew
  subst hcb hi
  simp only [editorProcessNormalKeypress, appendKey, CB_LEN, toChar]
  simp
  rw [adjustThenClear_eq _ _ prev r (by rw [← hprev]; exact deref_row_eq _ _ _ rfl)
    (by rw [currentRow_eq_some _ (by show nr - 1 < nr; omega), ← hnew]; exact deref_row_eq _ _ _ rfl)]
  simp

/-- With between one and nine buffered keys the index `E.cb_i - 1` does not wrap and lies
inside `cb`, so the second `switch` reads the last buffered key. -/
theorem suffixSwitch_eq (E : editorConfig) (h1 : 1 ≤ E.cb_i) (h2 : E.cb_i ≤ 9) :
    suffixSwitch E =
      if E.cb.getD (E.cb_i - 1) 0 = ch ':' then
        Outcome.ret 0 { E with cb_i := 1, cb := (E.cb.set 0 (ch ':')).set 1 0 }
      else if E.cb.getD (E.cb_i - 1) 0 = 10 ∨ E.cb.getD (E.cb_i - 1) 0 = 13 then
        if E.cb.getD 0 0 = ch ':' ∧ E.cb.getD 1 0 = ch 'q' then
          Outcome.halt (clearScreen ++ [Effect.exit 0])
        else Outcome.ret 0 { E with cb_i := 0, cb := E.cb.set 0 0 }
      else if E.cb_i = 9 then Outcome.ret 0 { E with cb_i := 0, cb := E.cb.set 0 0 }
      else Outcome.ret 1 E := by
  have hlt : E.cb_i - 1 < 10 := by omega
  have hne : ¬ E.cb_i = 0 := by omega
  simp only [suffixSwitch, if_neg hne, clearControlBuffer, CB_LEN, if_pos hlt]

/-- A first `g` on an empty buffer only records the key. -/
theorem normal_g_first (E : editorConfig) (hlen : E.cb.length = CB_LEN) (hi : E.cb_i = 0) :
    editorProcessNormalKeypress (ch 'g') E =
      Outcome.ret 1 { E with cb := (E.cb.set 0 (ch 'g')).set 1 0, cb_i := 1 } := by
  obtain ⟨a0, a1, a2, a3, a4, a5, a6, a7, a8, a9, hcb⟩ := cb_ten hlen
  rcases E with ⟨st, cb, cbi, cx, cy, co, ro, pc, sr, sc, nr, rows⟩
  simp only at hcb hi
  subst hcb hi
  simp [editorProcessNormalKeypress, appendKey, CB_LEN, toChar]
  rw [suffixSwitch_eq _ (by simp) (by simp)]
  simp

/-- A second `g`, on the buffer `g`, jumps to row 0. -/
theorem normal_g_second (E : editorConfig) (prev r : erow) (hlen : E.cb.length = CB_LEN)
    (hi : E.cb_i = 1) (hg : E.cb.getD 0 0 = ch 'g')
    (hprev : deref E (currentRow E) = some prev) (hnew : deref E (some 0) = some r) :
    editorProcessNormalKeypress (ch 'g') E =
      Outcome.ret 0 { E with cb := ((E.cb.set 1 (ch 'g')).set 2 0).set 0 0, cb_i := 0,
                             cy := 0,
                             cx := adjCol prev.size r.size E.prevColoff E.cx } := by
  obtain ⟨hcr, hcy0, hcy1⟩ := currentRow_of_deref hprev
  obtain ⟨a0, a1, a2, a3, a4, a5, a6, a7, a8, a9, hcb⟩ := cb_ten hlen
  rcases E with ⟨st, cb, cbi, cx, cy, co, ro, pc, sr, sc, nr, rows⟩
  simp only at hcb hi hnew hg hcy0 hcy1
  subst hcb hi
  simp only [List.getD_cons_zero] at hg
  subst hg
  simp only [editorProcessNormalKeypress, appendKey, CB_LEN, toChar]
  simp
  rw [adjustThenClear_eq _ _ prev r (by rw [← hprev]; exact deref_row_eq _ _ _ rfl)
    (by rw [currentRow_eq_some _ (by show (0 : Int) < nr; omega), ← hnew]; exact deref_row_eq _ _ _ rfl)]
  simp

/-- Every vertical motion on an empty buffer, from a cursor on an existing row of a row
store whose `numrows` counts its rows, returns; it moves the cursor to `landingRow`, which
is an existing row, sets the column to `adjCol`, leaves the buffer empty and changes
nothing else. -/
theorem vertical_motion (E : editorConfig) (prev : erow) (m : List Int)
    (hm : m ∈ verticalMotions) (hn : E.numrows = Int.ofNat E.row.length)
    (hlen : E.cb.length = CB_LEN) (hi : E.cb_i = 0)
    (hprev : deref E (currentRow E) = some prev) :
    ∃ r cb', deref E (some (landingRow E m)) = some r ∧
      0 ≤ landingRow E m ∧ landingRow E m < E.numrows ∧
      cb'.length = CB_LEN ∧ cb'.getD 0 0 = 0 ∧
      feedNormal m E = Outcome.ret ()
        { E with cb := cb', cb_i := 0, cy := landingRow E m,
                 cx := adjCol prev.size r.size E.prevColoff E.cx } := by
  obtain ⟨hcr, hcy0, hcy1⟩ := currentRow_of_deref hprev
  obtain ⟨a0, a1, a2, a3, a4, a5, a6, a7, a8, a9, hcb⟩ := cb_ten hlen
  simp only [verticalMotions, List.mem_cons, List.mem_singleton, List.mem_nil_iff, or_false] at hm
  rcases hm with rfl | rfl | rfl | rfl
  · have hl : landingRow E [ch 'j'] = (if E.cy < E.numrows - 1 then E.cy + 1 else E.cy) := by
      simp [landingRow]
    have hb : 0 ≤ landingRow E [ch 'j'] ∧ landingRow E [ch 'j'] < E.numrows := by
      rw [hl]; split <;> omega
    obtain ⟨r, hr⟩ := deref_exists E _ hn hb.1 hb.2
    refine ⟨r, ((E.cb.set 0 (ch 'j')).set 1 0).set 0 0, hr, hb.1, hb.2, ?_, ?_, ?_⟩
    rotate_left 2
    · simp only [feedNormal, normal_j E prev r hlen hi hprev (hl ▸ hr), hl]
    · simp [hcb, CB_LEN]
    · simp [hcb]
  · have hl : landingRow E [ch 'k'] = (if E.cy > 0 then E.cy - 1 else E.cy) := by
      simp [landingRow]
    have hb : 0 ≤ landingRow E [ch 'k'] ∧ landingRow E [ch 'k'] < E.numrows := by
      rw [hl]; split <;> omega
    obtain ⟨r, hr⟩ := deref_exists E _ hn hb.1 hb.2
    refine ⟨r, ((E.cb.set 0 (ch 'k')).set 1 0).set 0 0, hr, hb.1, hb.2, ?_, ?_, ?_⟩
    rotate_left 2
    · simp only [feedNormal, normal_k E prev r hlen hi hprev (hl ▸ hr), hl]
    · simp [hcb, CB_LEN]
    · simp [hcb]
  · have hl : landingRow E [ch 'g', ch 'g'] = 0 := by simp [landingRow]
    have hb : 0 ≤ landingRow E [ch 'g', ch 'g'] ∧ landingRow E [ch 'g', ch 'g'] < E.numrows := by
      rw [hl]; omega
    obtain ⟨r, hr⟩ := deref_exists E _ hn hb.1 hb.2
    refine ⟨r, (((((E.cb.set 0 (ch 'g')).set 1 0).set 1 (ch 'g')).set 2 0).set 0 0), hr, hb.1, hb.2, ?_, ?_, ?_⟩
    rotate_left 2
    · simp only [feedNormal, normal_g_first E hlen hi]
      rw [normal_g_second { E with cb := (E.cb.set 0 (ch 'g')).set 1 0, cb_i := 1 } prev r
        (by simp [hcb, CB_LEN]) rfl (by simp [hcb])
        (by rw [← hprev]; simp [deref, currentRow]) (by rw [← hr, hl]; exact deref_row_eq _ _ _ rfl)]
      simp only [hl]
    · simp [hcb, CB_LEN]
    · simp [hcb]
  · have hl : landingRow E [ch 'G'] = E.numrows - 1 := by simp [landingRow]
    have hb : 0 ≤ landingRow E [ch 'G'] ∧ landingRow E [ch 'G'] < E.numrows := by
      rw [hl]; omega
    obtain ⟨r, hr⟩ := deref_exists E _ hn hb.1 hb.2
    refine ⟨r, ((E.cb.set 0 (ch 'G')).set 1 0).set 0 0, hr, hb.1, hb.2, ?_, ?_, ?_⟩
    rotate_left 2
    · simp only [feedNormal, normal_G E prev r hlen hi hprev (hl ▸ hr), hl]
    · simp [hcb, CB_LEN]
    · simp [hcb]

/-! ## The command buffer -/

theorem appendKey_cb_i (c : Int) (E : editorConfig) (hi : E.cb_i ≤ 8) :
    (appendKey c E).cb_i = E.cb_i + 1 := by
  have : E.cb_i < CB_LEN - 1 := by unfold CB_LEN; omega
  simp [appendKey, this]

theorem appendKey_length (c : Int) (E : editorConfig) :
    (appendKey c E).cb.length = E.cb.length := by
  unfold appendKey; split <;> simp

theorem appendKey_frame (c : Int) (E : editorConfig) :
    appendKey c E = { E with cb := (appendKey c E).cb, cb_i := (appendKey c E).cb_i } := by
  unfold appendKey; split <;> rfl

theorem appendKey_cb0 (c : Int) (E : editorConfig) (hlen : E.cb.length = CB_LEN) (hi : E.cb_i ≤ 8) :
    (appendKey c E).cb.getD 0 0 = if E.cb_i = 0 then toChar c else E.cb.getD 0 0 := by
  obtain ⟨a0, a1, a2, a3, a4, a5, a6, a7, a8, a9, hcb⟩ := cb_ten hlen
  have : E.cb_i < CB_LEN - 1 := by unfold CB_LEN; omega
  simp only [appendKey, this, if_true, hcb]
  generalize E.cb_i = n at hi
  interval_cases n <;> simp

theorem appendKey_cb1 (c : Int) (E : editorConfig) (hlen : E.cb.length = CB_LEN) (hi : E.cb_i ≤ 8) :
    (appendKey c E).cb.getD 1 0 =
      if E.cb_i = 0 then 0 else if E.cb_i = 1 then toChar c else E.cb.getD 1 0 := by
  obtain ⟨a0, a1, a2, a3, a4, a5, a6, a7, a8, a9, hcb⟩ := cb_ten hlen
  have : E.cb_i < CB_LEN - 1 := by unfold CB_LEN; omega
  simp only [appendKey, this, if_true, hcb]
  generalize E.cb_i = n at hi
  interval_cases n <;> simp

theorem appendKey_last (c : Int) (E : editorConfig) (hlen : E.cb.length = CB_LEN) (hi : E.cb_i ≤ 8) :
    (appendKey c E).cb.getD E.cb_i 0 = toChar c := by
  obtain ⟨a0, a1, a2, a3, a4, a5, a6, a7, a8, a9, hcb⟩ := cb_ten hlen
  have : E.cb_i < CB_LEN - 1 := by unfold CB_LEN; omega
  simp only [appendKey, this, if_true, hcb]
  generalize E.cb_i = n at hi
  interval_cases n <;> simp

theorem appendKey_term (c : Int) (E : editorConfig) (hlen : E.cb.length = CB_LEN) (hi : E.cb_i ≤ 8) :
    (appendKey c E).cb.getD (E.cb_i + 1) 0 = 0 := by
  obtain ⟨a0, a1, a2, a3, a4, a5, a6, a7, a8, a9, hcb⟩ := cb_ten hlen
  have : E.cb_i < CB_LEN - 1 := by unfold CB_LEN; omega
  simp only [appendKey, this, if_true, hcb]
  generalize E.cb_i = n at hi
  interval_cases n <;> simp

/-- A cleared buffer is a pending buffer. -/
theorem cbPending_clear (X : editorConfig) (hlen : X.cb.length = CB_LEN) :
    CbPending (clearControlBuffer X).2 := by
  obtain ⟨a0, a1, a2, a3, a4, a5, a6, a7, a8, a9, hcb⟩ := cb_ten hlen
  simp [CbPending, clearControlBuffer, hcb, CB_LEN]

theorem clearControlBuffer_frame (X : editorConfig) :
    (clearControlBuffer X).2 =
      { X with cb := (clearControlBuffer X).2.cb, cb_i := (clearControlBuffer X).2.cb_i } := rfl

/-- Function `adjustPrevCol` writes nothing but `E.cx`. -/
theorem adjustPrevCol_frame (p : RowPtr) (X X1 : editorConfig) (h : adjustPrevCol p X = some X1) :
    X1 = { X with cx := X1.cx } := by
  unfold adjustPrevCol at h
  simp only at h
  split at h
  · split_ifs at h <;> simp only [Option.some.injEq] at h <;> subst h <;> rfl
  · exact absurd h (by simp)

theorem adjustThenClear_ret (p : RowPtr) (X : editorConfig) (v : Int) (E' : editorConfig)
    (h : adjustThenClear p X = Outcome.ret v E') (hlen : X.cb.length = CB_LEN) :
    CbPending E' ∧ E'.state = X.state ∧ E'.cy = X.cy ∧ E'.prevColoff = X.prevColoff ∧
      E'.numrows = X.numrows ∧ E'.row = X.row ∧ E'.coloff = X.coloff ∧ E'.rowoff = X.rowoff ∧
      E'.screenrows = X.screenrows ∧ E'.screencols = X.screencols := by
  unfold adjustThenClear at h
  split at h
  · exact absurd h (by simp)
  · rename_i X1 hX1
    have hf := adjustPrevCol_frame p X X1 hX1
    simp only [Outcome.ret.injEq] at h
    obtain ⟨_, rfl⟩ := h
    refine ⟨cbPending_clear X1 (by rw [hf]; exact hlen), ?_⟩
    rw [hf]; simp [clearControlBuffer]

theorem suffixSwitch_ret (X : editorConfig) (v : Int) (E' : editorConfig)
    (h : suffixSwitch X = Outcome.ret v E')
    (h1 : 1 ≤ X.cb_i) (h2 : X.cb_i ≤ 9) (hlen : X.cb.length = CB_LEN)
    (hterm : X.cb.getD X.cb_i 0 = 0) (hnp : ¬ prefixKey (X.cb.getD 0 0))
    (hg : X.cb.getD 0 0 = ch 'g' → X.cb.getD 1 0 ≠ ch 'g') :
    CbPending E' ∧ E' = { X with cb := E'.cb, cb_i := E'.cb_i } := by
  obtain ⟨a0, a1, a2, a3, a4, a5, a6, a7, a8, a9, hcb⟩ := cb_ten hlen
  rw [suffixSwitch_eq X h1 h2] at h
  split_ifs at h with hc hn hq h9 <;> simp only [Outcome.ret.injEq] at h
  · obtain ⟨_, rfl⟩ := h
    refine ⟨?_, rfl⟩
    simp [CbPending, hcb, CB_LEN, prefixKey]
  · obtain ⟨_, rfl⟩ := h
    exact ⟨cbPending_clear X hlen, rfl⟩
  · obtain ⟨_, rfl⟩ := h
    exact ⟨cbPending_clear X hlen, rfl⟩
  · obtain ⟨_, rfl⟩ := h
    exact ⟨⟨hlen, by omega, hterm, fun _ => ⟨hnp, hg⟩⟩, rfl⟩

/-- Whatever the key, a call of `editorProcessNormalKeypress` that returns leaves a pending
buffer: only the length of `cb` and `cb_i ≤ 8` are needed of the state before. -/
theorem normal_cbPending (c : Int) (E : editorConfig) (v : Int) (E' : editorConfig)
    (hlen : E.cb.length = CB_LEN) (hi : E.cb_i ≤ 8)
    (h : editorProcessNormalKeypress c E = Outcome.ret v E') : CbPending E' := by
  have hl := (appendKey_length c E).trans hlen
  have hci := appendKey_cb_i c E hi
  have hterm : (appendKey c E).cb.getD (appendKey c E).cb_i 0 = 0 := by
    rw [hci]; exact appendKey_term c E hlen hi
  unfold editorProcessNormalKeypress at h
  simp only at h
  split_ifs at h
  all_goals first
    | exact (adjustThenClear_ret _ _ v E' h hl).1
    | exact (suffixSwitch_ret _ v E' h (by omega) (by omega) hl hterm
        (by
          unfold prefixKey
          rintro (h' | h' | h' | h' | h' | h') <;> first
            | contradiction
            | (have hg : (appendKey c E).cb.getD 0 0 = ch 'g' := by assumption
               rw [hg] at h'; revert h'; decide))
        (by intro hg'; first | contradiction | assumption)).1
    | (simp only [Outcome.ret.injEq] at h
       obtain ⟨_, rfl⟩ := h
       exact cbPending_clear _ hl)
    | (split at h
       · simp only [Outcome.ret.injEq] at h
         obtain ⟨_, rfl⟩ := h
         exact cbPending_clear _ hl
       · split at h
         · exact absurd h (by simp)
         · split_ifs at h <;>
           (simp only [Outcome.ret.injEq] at h
            obtain ⟨_, rfl⟩ := h
            exact cbPending_clear _ hl))

/-- A key that is neither `g` nor one of the first-character commands, typed on a pending
buffer, reaches the second `switch`. -/
theorem normal_other (c : Int) (E : editorConfig) (hp : CbPending E)
    (hk1 : toChar c ≠ ch 'g') (hk2 : ¬ prefixKey (toChar c)) :
    editorProcessNormalKeypress c E = suffixSwitch (appendKey c E) := by
  obtain ⟨hlen, hi, _, hpre⟩ := hp
  have h0 := appendKey_cb0 c E hlen hi
  have h1 := appendKey_cb1 c E hlen hi
  have hnp : ¬ prefixKey ((appendKey c E).cb.getD 0 0) := by
    rw [h0]; split
    · exact hk2
    · exact (hpre (by omega)).1
  have hgg : (appendKey c E).cb.getD 0 0 = ch 'g' → (appendKey c E).cb.getD 1 0 ≠ ch 'g' := by
    rw [h0, h1]
    by_cases hz : E.cb_i = 0
    · simp only [hz, if_true]; intro h; exact absurd h hk1
    · simp only [hz, if_false]
      intro hg
      by_cases ho : E.cb_i = 1
      · simp only [ho, if_true]; exact hk1
      · simp only [ho, if_false]; exact (hpre (by omega)).2 hg
  unfold prefixKey at hnp
  push_neg at hnp
  obtain ⟨nG, nh, ni, nj, nk, nl⟩ := hnp
  unfold editorProcessNormalKeypress
  simp only
  by_cases hg : (appendKey c E).cb.getD 0 0 = ch 'g'
  · rw [if_pos hg, if_neg (hgg hg)]
  · rw [if_neg hg, if_neg nG, if_neg nh, if_neg ni, if_neg nj, if_neg nk, if_neg nl]

theorem toChar_ascii (c : Int) (h0 : 0 ≤ c) (h1 : c < 128) : toChar c = c := by
  unfold toChar; omega

/-- A key that no rule of `editorProcessNormalKeypress` matches (not `g`, not a first-character
command, not `:`, not a newline or carriage return), typed on a pending buffer: the call
returns, the buffer stays pending, and nothing but the buffer changes. -/
theorem normal_unrecognised (c : Int) (E : editorConfig) (hp : CbPending E)
    (hk1 : toChar c ≠ ch 'g') (hk2 : ¬ prefixKey (toChar c)) (hk3 : toChar c ≠ ch ':')
    (hk4 : toChar c ≠ 10) (hk5 : toChar c ≠ 13) :
    ∃ v E', editorProcessNormalKeypress c E = Outcome.ret v E' ∧ CbPending E' ∧
      E' = { E with cb := E'.cb, cb_i := E'.cb_i } := by
  have hlen := hp.1
  have hi := hp.2.1
  have hci := appendKey_cb_i c E hi
  have hlast : (appendKey c E).cb.getD ((appendKey c E).cb_i - 1) 0 = toChar c := by
    rw [hci]; exact appendKey_last c E hlen hi
  have hfr := appendKey_frame c E
  have hl := (appendKey_length c E).trans hlen
  rw [normal_other c E hp hk1 hk2, suffixSwitch_eq _ (by omega) (by omega), hlast,
    if_neg hk3, if_neg (by rintro (h | h); exact hk4 h; exact hk5 h)]
  split
  · refine ⟨0, _, rfl, ?_, ?_⟩
    · exact cbPending_clear _ hl
    · rw [hfr]
  · rename_i h9
    refine ⟨1, _, rfl, ?_, hfr⟩
    have hterm : (appendKey c E).cb.getD (appendKey c E).cb_i 0 = 0 := by
      rw [hci]; exact appendKey_term c E hlen hi
    have h := normal_other c E hp hk1 hk2
    exact normal_cbPending c E 1 _ hlen hi (by
      rw [h, suffixSwitch_eq _ (by omega) (by omega), hlast, if_neg hk3,
        if_neg (by rintro (h | h); exact hk4 h; exact hk5 h), if_neg h9])

/-! ## Reachable states -/

theorem editorOpen_frame (lines : List (List Int)) :
    ∀ E : editorConfig, editorOpen lines E =
      { E with row := (editorOpen lines E).row, numrows := (editorOpen lines E).numrows } := by
  induction lines with
  | nil => intro E; rfl
  | cons l ls ih =>
    intro E
    have h := ih (editorAppendRow (stripEol l) E)
    simp only [editorOpen, List.foldl_cons] at h ⊢
    rw [h]
    simp [editorAppendRow]

theorem startup_frame (lines : List (List Int)) (sr sc : Int) :
    startup lines sr sc =
      { initEditor sr sc with row := (startup lines sr sc).row,
                              numrows := (startup lines sr sc).numrows } :=
  editorOpen_frame lines (initEditor sr sc)

theorem startup_cbPending (lines : List (List Int)) (sr sc : Int) :
    CbPending (startup lines sr sc) := by
  rw [startup_frame]
  simp [CbPending, initEditor, CB_LEN, List.replicate]

theorem editorScroll_frame (E : editorConfig) :
    editorScroll E =
      { E with rowoff := (editorScroll E).rowoff, coloff := (editorScroll E).coloff } := by
  unfold editorScroll
  simp only
  split_ifs <;> rfl

theorem cbPending_of_cb_eq (E E' : editorConfig) (hcb : E'.cb = E.cb) (hi : E'.cb_i = E.cb_i)
    (h : CbPending E) : CbPending E' := by
  unfold CbPending at h ⊢
  rw [hcb, hi]; exact h

/-- Function `editorProcessKeypress` keeps the buffer pending, whatever the key and mode. -/
theorem keypress_cbPending (c : Int) (E E' : editorConfig) (hp : CbPending E)
    (h : editorProcessKeypress c E = Outcome.ret () E') : CbPending E' := by
  unfold editorProcessKeypress at h
  simp only at h
  by_cases hs : E.state = ST_NORMAL
  · simp only [hs, if_true] at h
    cases hN : editorProcessNormalKeypress c E with
    | ret v E1 =>
      rw [hN] at h
      simp only [Outcome.ret.injEq, true_and] at h
      have h1 := normal_cbPending c E v E1 hp.1 hp.2.1 hN
      subst h
      split
      · exact cbPending_of_cb_eq E1 _ rfl rfl h1
      · exact h1
    | halt t => rw [hN] at h; exact absurd h (by simp)
    | fault => rw [hN] at h; exact absurd h (by simp)
  · simp only [hs, if_false, Outcome.ret.injEq, true_and] at h
    subst h
    split
    · exact cbPending_of_cb_eq E _ rfl rfl hp
    · exact hp

theorem mainLoop_cbPending (keys : List Int) :
    ∀ E E' : editorConfig, CbPending E → mainLoop keys E = Outcome.ret () E' → CbPending E' := by
  induction keys with
  | nil =>
    intro E E' hp h
    simp only [mainLoop, Outcome.ret.injEq, true_and] at h
    exact h ▸ hp
  | cons c cs ih =>
    intro E E' hp h
    simp only [mainLoop, mainStep] at h
    cases hK : editorProcessKeypress c (editorScroll E) with
    | ret v E1 =>
      rw [hK] at h
      have hs : CbPending (editorScroll E) :=
        cbPending_of_cb_eq E _ (by rw [editorScroll_frame]) (by rw [editorScroll_frame]) hp
      exact ih E1 E' (keypress_cbPending c _ E1 hs hK) h
    | halt t => rw [hK] at h; exact absurd h (by simp)
    | fault => rw [hK] at h; exact absurd h (by simp)

/-- In every state the program reaches the command buffer is pending. -/
theorem reachable_cbPending (E : editorConfig) (h : Reachable E) : CbPending E := by
  obtain ⟨keys, lines, sr, sc, hrun⟩ := h
  exact mainLoop_cbPending keys _ E (startup_cbPending lines sr sc) hrun

/-! ## C6: colon-quit -/

/-- A key that no rule matches and that is not an escape key, read in Normal mode on a pending
buffer: `editorProcessKeypress` returns and changes nothing but the buffer. -/
theorem keypress_unrecognised (c : Int) (E : editorConfig) (hp : CbPending E)
    (hs : E.state = ST_NORMAL)
    (hk1 : toChar c ≠ ch 'g') (hk2 : ¬ prefixKey (toChar c)) (hk3 : toChar c ≠ ch ':')
    (hk4 : toChar c ≠ 10) (hk5 : toChar c ≠ 13)
    (hesc : ¬ (c = ESC ∨ c = CTRL_KEY (ch 'C') ∨ c = CTRL_KEY (ch '['))) :
    ∃ E', editorProcessKeypress c E = Outcome.ret () E' ∧ CbPending E' ∧
      E' = { E with cb := E'.cb, cb_i := E'.cb_i } := by
  obtain ⟨v, E', hN, hp', hfr⟩ := normal_unrecognised c E hp hk1 hk2 hk3 hk4 hk5
  refine ⟨E', ?_, hp', hfr⟩
  unfold editorProcessKeypress
  simp only [hs, if_true, hN, if_neg hesc]

theorem digit_key (d : Int) (h : ch '0' ≤ d ∧ d ≤ ch '9') :
    toChar d ≠ ch 'g' ∧ ¬ prefixKey (toChar d) ∧ toChar d ≠ ch ':' ∧ toChar d ≠ 10 ∧
      toChar d ≠ 13 ∧ ¬ (d = ESC ∨ d = CTRL_KEY (ch 'C') ∨ d = CTRL_KEY (ch '[')) := by
  have h0 : (48 : Int) ≤ d := h.1
  have h1 : d ≤ (57 : Int) := h.2
  have ht : toChar d = d := toChar_ascii d (by omega) (by omega)
  rw [ht]
  have e1 : ch 'g' = 103 := by decide
  have e2 : ch ':' = 58 := by decide
  have e3 : CTRL_KEY (ch 'C') = 3 := by decide
  have e4 : CTRL_KEY (ch '[') = 27 := by decide
  have e5 : ESC = 27 := rfl
  rw [e1, e2, e3, e4, e5]
  refine ⟨by omega, ?_, by omega, by omega, by omega, by omega⟩
  unfold prefixKey
  have f1 : ch 'G' = 71 := by decide
  have f2 : ch 'h' = 104 := by decide
  have f3 : ch 'i' = 105 := by decide
  have f4 : ch 'j' = 106 := by decide
  have f5 : ch 'k' = 107 := by decide
  have f6 : ch 'l' = 108 := by decide
  rw [f1, f2, f3, f4, f5, f6]
  omega

/-- Digit keys in Normal mode on a pending buffer: the loop of `main` keeps running, the
buffer stays pending and the cursor and the mode do not change. -/
theorem mainLoop_digits (ds : List Int) :
    ∀ E : editorConfig, CbPending E → E.state = ST_NORMAL →
      (∀ d ∈ ds, ch '0' ≤ d ∧ d ≤ ch '9') →
      ∃ E', mainLoop ds E = Outcome.ret () E' ∧ CbPending E' ∧ E'.cx = E.cx ∧ E'.cy = E.cy ∧
        E'.state = ST_NORMAL := by
  induction ds with
  | nil => intro E hp hs _; exact ⟨E, rfl, hp, rfl, rfl, hs⟩
  | cons d ds ih =>
    intro E hp hs hd
    obtain ⟨k1, k2, k3, k4, k5, k6⟩ := digit_key d (hd d (List.mem_cons_self _ _))
    have hsc := editorScroll_frame E
    have hps : CbPending (editorScroll E) :=
      cbPending_of_cb_eq E _ (by rw [hsc]) (by rw [hsc]) hp
    have hss : (editorScroll E).state = ST_NORMAL := by rw [hsc]; exact hs
    obtain ⟨E1, hK, hp1, hfr⟩ := keypress_unrecognised d (editorScroll E) hps hss k1 k2 k3 k4 k5 k6
    have hs1 : E1.state = ST_NORMAL := by rw [hfr]; exact hss
    obtain ⟨E', hrun, hp', hcx, hcy, hs'⟩ :=
      ih E1 hp1 hs1 (fun x hx => hd x (List.mem_cons_of_mem _ hx))
    refine ⟨E', ?_, hp', ?_, ?_, hs'⟩
    · simp only [mainLoop, mainStep, hK]; exact hrun
    · rw [hcx, hfr]; show (editorScroll E).cx = E.cx; rw [hsc]
    · rw [hcy, hfr]; show (editorScroll E).cy = E.cy; rw [hsc]

/-- C7: in every state the program reaches from a startup state, whatever the keys, the
command buffer holds at most 9 (`CB_LEN - 1`) keys and the terminator `'\0'` sits at index
`cb_i` inside the ten slots of `cb`; and any run of digit keys from a startup state (eleven
of them, say) keeps the program running, with the buffer within that bound after each key
and the cursor still at `(0, 0)`. -/
theorem C7_cb_capacity :
    (∀ E : editorConfig, Reachable E →
      E.cb.length = CB_LEN ∧ E.cb_i ≤ CB_LEN - 1 ∧ E.cb_i < E.cb.length ∧
        E.cb.getD E.cb_i 0 = 0) ∧
    (∀ (lines : List (List Int)) (sr sc : Int) (ds : List Int),
      (∀ d ∈ ds, ch '0' ≤ d ∧ d ≤ ch '9') →
      ∃ E', mainLoop ds (startup lines sr sc) = Outcome.ret () E' ∧
        E'.cb_i ≤ CB_LEN - 1 ∧ E'.cx = 0 ∧ E'.cy = 0) := by
  constructor
  · intro E hE
    obtain ⟨hlen, hi, hterm, _⟩ := reachable_cbPending E hE
    refine ⟨hlen, ?_, ?_, hterm⟩
    · unfold CB_LEN; omega
    · rw [hlen]; unfold CB_LEN; omega
  · intro lines sr sc ds hd
    have hst : (startup lines sr sc).state = ST_NORMAL := by rw [startup_frame]; rfl
    obtain ⟨E', hrun, hp', hcx, hcy, _⟩ :=
      mainLoop_digits ds (startup lines sr sc) (startup_cbPending lines sr sc) hst hd
    refine ⟨E', hrun, ?_, ?_, ?_⟩
    · have := hp'.2.1; unfold CB_LEN; omega
    · rw [hcx, startup_frame]; rfl
    · rw [hcy, startup_frame]; rfl

/-- C7 at the state reached by the keys `1`, `g` on the file `a`, and at eleven digit keys
typed on the file `a`. -/
theorem C7_cb_capacity_witness :
    (pendingState.cb.length = CB_LEN ∧ pendingState.cb_i ≤ CB_LEN - 1 ∧
      pendingState.cb_i < pendingState.cb.length ∧
      pendingState.cb.getD pendingState.cb_i 0 = 0) ∧
    (∃ E', mainLoop [48, 49, 50, 51, 52, 53, 54, 55, 56, 57, 48] (startup [[ch 'a']] 24 80)
        = Outcome.ret () E' ∧ E'.cb_i ≤ CB_LEN - 1 ∧ E'.cx = 0 ∧ E'.cy = 0) :=
  ⟨C7_cb_capacity.1 pendingState ⟨[ch '1', ch 'g'], [[ch 'a']], 24, 80, by decide⟩,
   C7_cb_capacity.2 [[ch 'a']] 24 80 [48, 49, 50, 51, 52, 53, 54, 55, 56, 57, 48] (by decide)⟩

/-! ## C10: global escape -/

/-- C10: when `editorProcessKeypress` handles the key 0x1b (Escape, also Ctrl-[) or the key
0x03 (Ctrl-C), it returns with the mode set to Normal, from any mode: from Insert or Visual
mode nothing but the mode changes (cursor, command buffer and rows are untouched); in Normal
mode this holds for every pending command buffer, so for every state the program reaches. -/
theorem C10_global_escape (E : editorConfig) (c : Int)
    (hc : c = 0x1b ∨ c = 0x03)
    (hp : E.state = ST_NORMAL → CbPending E ∨ Reachable E) :
    ∃ E', editorProcessKeypress c E = Outcome.ret () E' ∧ E'.state = ST_NORMAL ∧
      (E.state ≠ ST_NORMAL → E' = { E with state := ST_NORMAL }) := by
  have hesc : c = ESC ∨ c = CTRL_KEY (ch 'C') ∨ c = CTRL_KEY (ch '[') := by
    rcases hc with rfl | rfl
    · exact Or.inl rfl
    · exact Or.inr (Or.inl (by decide))
  by_cases hs : E.state = ST_NORMAL
  · have hcb : CbPending E := (hp hs).elim id (reachable_cbPending E)
    have hk : toChar c ≠ ch 'g' ∧ ¬ prefixKey (toChar c) ∧ toChar c ≠ ch ':' ∧
        toChar c ≠ 10 ∧ toChar c ≠ 13 := by
      rcases hc with rfl | rfl <;> decide
    obtain ⟨v, E1, hN, _, _⟩ := normal_unrecognised c E hcb hk.1 hk.2.1 hk.2.2.1 hk.2.2.2.1 hk.2.2.2.2
    refine ⟨{ E1 with state := ST_NORMAL }, ?_, rfl, fun h => absurd hs h⟩
    unfold editorProcessKeypress
    simp only [hs, if_true, hN, if_pos hesc]
  · refine ⟨{ E with state := ST_NORMAL }, ?_, rfl, fun _ => rfl⟩
    unfold editorProcessKeypress
    simp only [hs, if_false, if_pos hesc]

/-- C10 at the file `a` in Insert mode, key Escape. -/
theorem C10_global_escape_witness :
    ∃ E', editorProcessKeypress 0x1b insertState = Outcome.ret () E' ∧ E'.state = ST_NORMAL ∧
      (insertState.state ≠ ST_NORMAL → E' = { insertState with state := ST_NORMAL }) :=
  C10_global_escape insertState 0x1b (Or.inl rfl) (fun h => absurd h (by decide))

/-! ## C2, C3, C4: the column after a vertical motion -/

/-- C2, code at the failing input: on the file whose rows are `abc` and the empty line,
from the startup state (cursor `(0, 0)`, sticky column 0), one `j` and one `k` bring the
cursor back to row 0, a row of the same length as the starting row, at column -1, not 0. -/
theorem C2_round_trip_fails :
    feedNormal [ch 'j', ch 'k'] (startup [[ch 'a', ch 'b', ch 'c'], []] 24 80)
      = Outcome.ret () { startup [[ch 'a', ch 'b', ch 'c'], []] 24 80 with cx := -1 } ∧
    (startup [[ch 'a', ch 'b', ch 'c'], []] 24 80).cx = 0 ∧
    (startup [[ch 'a', ch 'b', ch 'c'], []] 24 80).cy = 0 := by
  refine ⟨by decide, by decide, by decide⟩

/-- C3, code at the failing input: on the file whose rows are `abcdef` and `abc`, the keys
`l`, `l`, `l`, `j` from the startup state leave the cursor at `(2, 1)` with the sticky column
3, a valid cursor on the row `abc`; the key `k` then lands on the row `abcdef`, whose length 6
is greater than the sticky column, and the cursor column stays 2 instead of 3.  Likewise on
the rows `abc` and the empty line the keys `j`, `k` land on `abc`, longer than the sticky
column 0, at column -1. -/
theorem C3_sticky_not_restored :
    feedNormal [ch 'l', ch 'l', ch 'l', ch 'j']
        (startup [[ch 'a', ch 'b', ch 'c', ch 'd', ch 'e', ch 'f'], [ch 'a', ch 'b', ch 'c']] 24 80)
      = Outcome.ret ()
          { startup [[ch 'a', ch 'b', ch 'c', ch 'd', ch 'e', ch 'f'], [ch 'a', ch 'b', ch 'c']] 24 80
            with cy := 1, cx := 2, prevColoff := 3 } ∧
    deref (startup [[ch 'a', ch 'b', ch 'c', ch 'd', ch 'e', ch 'f'], [ch 'a', ch 'b', ch 'c']] 24 80)
        (some 1) = some { size := 3, chars := [ch 'a', ch 'b', ch 'c'] } ∧
    editorProcessNormalKeypress (ch 'k')
        { startup [[ch 'a', ch 'b', ch 'c', ch 'd', ch 'e', ch 'f'], [ch 'a', ch 'b', ch 'c']] 24 80
          with cy := 1, cx := 2, prevColoff := 3 }
      = Outcome.ret 0
          { startup [[ch 'a', ch 'b', ch 'c', ch 'd', ch 'e', ch 'f'], [ch 'a', ch 'b', ch 'c']] 24 80
            with cy := 0, cx := 2, prevColoff := 3 } ∧
    deref (startup [[ch 'a', ch 'b', ch 'c', ch 'd', ch 'e', ch 'f'], [ch 'a', ch 'b', ch 'c']] 24 80)
        (some 0) = some { size := 6, chars := [ch 'a', ch 'b', ch 'c', ch 'd', ch 'e', ch 'f'] } ∧
    feedNormal [ch 'j', ch 'k'] (startup [[ch 'a', ch 'b', ch 'c'], []] 24 80)
      = Outcome.ret () { startup [[ch 'a', ch 'b', ch 'c'], []] 24 80 with cx := -1 } ∧
    (startup [[ch 'a', ch 'b', ch 'c'], []] 24 80).prevColoff = 0 := by
  refine ⟨by decide, by decide, by decide, by decide, by decide, by decide⟩

/-- Where the column reconciliation does restore the sticky column: in a row store whose
`numrows` counts its rows, from a state with an empty command buffer and the cursor on an
existing row, where the cursor column equals the sticky column or the row is shorter than
the sticky column, each vertical motion (`j`, `k`, `gg`, `G`) returns, leaves the sticky
column as it was, and, when it lands on a row longer than the sticky column, puts the cursor
column on the sticky column. -/
theorem vertical_restores_sticky (E : editorConfig) (prev : erow) (m : List Int)
    (hm : m ∈ verticalMotions) (hn : E.numrows = Int.ofNat E.row.length)
    (hlen : E.cb.length = CB_LEN) (hi : E.cb_i = 0)
    (hprev : deref E (currentRow E) = some prev)
    (hst : E.cx = E.prevColoff ∨ prev.size < E.prevColoff) :
    ∃ E' r, feedNormal m E = Outcome.ret () E' ∧ deref E' (currentRow E') = some r ∧
      E'.prevColoff = E.prevColoff ∧ (r.size > E.prevColoff → E'.cx = E.prevColoff) := by
  obtain ⟨r, cb', hr, h0, h1, _, _, hfeed⟩ := vertical_motion E prev m hm hn hlen hi hprev
  refine ⟨_, r, hfeed, ?_, rfl, ?_⟩
  · rw [currentRow_eq_some _ (by exact h1), ← hr]; exact deref_row_eq _ _ _ rfl
  · intro hL
    show adjCol prev.size r.size E.prevColoff E.cx = E.prevColoff
    unfold adjCol
    split_ifs <;> omega

/-- C4, code at the failing input: on the file whose rows are `ab` and the empty line, from
the startup state (sticky column 0), the key `j` lands on the empty row, whose length 0 is
at most the sticky column, and leaves the cursor column at -1, not 0. -/
theorem C4_empty_row_column :
    feedNormal [ch 'j'] (startup [[ch 'a', ch 'b'], []] 24 80)
      = Outcome.ret () { startup [[ch 'a', ch 'b'], []] 24 80 with cy := 1, cx := -1 } ∧
    deref (startup [[ch 'a', ch 'b'], []] 24 80) (some 1) = some { size := 0, chars := [] } ∧
    (startup [[ch 'a', ch 'b'], []] 24 80).prevColoff = 0 := by
  refine ⟨by decide, by decide, by decide⟩

/-! ## C5: the empty row store -/

/-- C5, code at the failing input: started without a file (no rows, cursor `(0, 0)`, empty
buffer), the keys `h` and `l` return and change nothing, but each of `j`, `k`, `gg` and `G`
reads through an invalid row pointer in `adjustPrevCol` (`prevRow` is `NULL`). -/
theorem C5_empty_store_faults :
    (startup [] 24 80).numrows = 0 ∧
    editorProcessNormalKeypress (ch 'h') (startup [] 24 80) = Outcome.ret 0 (startup [] 24 80) ∧
    editorProcessNormalKeypress (ch 'l') (startup [] 24 80) = Outcome.ret 0 (startup [] 24 80) ∧
    editorProcessNormalKeypress (ch 'j') (startup [] 24 80) = Outcome.fault ∧
    editorProcessNormalKeypress (ch 'k') (startup [] 24 80) = Outcome.fault ∧
    feedNormal [ch 'g', ch 'g'] (startup [] 24 80) = Outcome.fault ∧
    editorProcessNormalKeypress (ch 'G') (startup [] 24 80) = Outcome.fault := by
  refine ⟨by decide, by decide, by decide, by decide, by decide, by decide, by decide⟩

/-! ## C8, C9: `gg` and `G` -/

/-- When the cursor is on an existing row, row 0 exists. -/
theorem first_row_exists (E : editorConfig) (prev : erow)
    (hprev : deref E (currentRow E) = some prev) : ∃ r, deref E (some 0) = some r := by
  obtain ⟨hcr, h0, _⟩ := currentRow_of_deref hprev
  rw [hcr] at hprev
  cases hrow : E.row with
  | nil => simp [deref, h0, hrow] at hprev
  | cons r rs => exact ⟨r, by simp [deref, hrow]⟩

/-- C8: from a state with an empty command buffer and the cursor on an existing row (so the
row store is not empty), a first `g` returns, changes nothing but the buffer, which then
holds exactly `g`; a second `g` returns with the cursor on row 0 and the buffer empty. -/
theorem C8_gg_first_row (E : editorConfig) (prev : erow)
    (hlen : E.cb.length = CB_LEN) (hi : E.cb_i = 0)
    (hprev : deref E (currentRow E) = some prev) :
    ∃ E1 E2, editorProcessNormalKeypress (ch 'g') E = Outcome.ret 1 E1 ∧
      E1 = { E with cb := E1.cb, cb_i := E1.cb_i } ∧
      E1.cb_i = 1 ∧ E1.cb.getD 0 0 = ch 'g' ∧ E1.cb.getD 1 0 = 0 ∧
      editorProcessNormalKeypress (ch 'g') E1 = Outcome.ret 0 E2 ∧
      E2.cy = 0 ∧ E2.cb_i = 0 ∧ E2.cb.getD 0 0 = 0 := by
  obtain ⟨r, hr⟩ := first_row_exists E prev hprev
  obtain ⟨a0, a1, a2, a3, a4, a5, a6, a7, a8, a9, hcb⟩ := cb_ten hlen
  have h1 : ({ E with cb := (E.cb.set 0 (ch 'g')).set 1 0, cb_i := 1 } : editorConfig).cb.getD 0 0
      = ch 'g' := by simp only [hcb]; rfl
  refine ⟨_, _, normal_g_first E hlen hi, rfl, rfl, h1, by simp only [hcb]; rfl,
    normal_g_second { E with cb := (E.cb.set 0 (ch 'g')).set 1 0, cb_i := 1 } prev r
      (by simp only [List.length_set]; exact hlen) rfl h1
      (by rw [← hprev]; simp [deref, currentRow]) (by rw [← hr]; exact deref_row_eq _ _ _ rfl),
    rfl, rfl, by simp only [hcb]; rfl⟩

/-- C8 at the two-row file `abc`, `abcdef` with the cursor on row 1. -/
theorem C8_gg_first_row_witness :
    ∃ E1 E2, editorProcessNormalKeypress (ch 'g') { stickyState with cy := 1 } = Outcome.ret 1 E1 ∧
      E1 = { ({ stickyState with cy := 1 } : editorConfig) with cb := E1.cb, cb_i := E1.cb_i } ∧
      E1.cb_i = 1 ∧ E1.cb.getD 0 0 = ch 'g' ∧ E1.cb.getD 1 0 = 0 ∧
      editorProcessNormalKeypress (ch 'g') E1 = Outcome.ret 0 E2 ∧
      E2.cy = 0 ∧ E2.cb_i = 0 ∧ E2.cb.getD 0 0 = 0 :=
  C8_gg_first_row { stickyState with cy := 1 }
    { size := 6, chars := [ch 'a', ch 'b', ch 'c', ch 'd', ch 'e', ch 'f'] }
    (by decide) (by decide) (by decide)

/-- C9, code at the failing input: started without a file (no rows, Normal mode, empty
buffer), the key `G` does not return: after `E.cy = E.numrows - 1` the call of
`adjustPrevCol` reads through an invalid row pointer (`prevRow` is `NULL`), so the cursor
row is not set to `numrows - 1` with the buffer cleared. -/
theorem C9_G_empty_store_faults :
    (startup [] 24 80).state = ST_NORMAL ∧ (startup [] 24 80).cb_i = 0 ∧
    (startup [] 24 80).cb.getD 0 0 = 0 ∧ (startup [] 24 80).numrows = 0 ∧
    editorProcessNormalKeypress (ch 'G') (startup [] 24 80) = Outcome.fault := by
  refine ⟨by decide, by decide, by decide, by decide, by decide⟩

/-- Where `G` does what is asked: in a row store whose `numrows` counts its rows, from a state
with an empty command buffer and the cursor on an existing row (so the row store is not
empty), the key `G` returns with the cursor on row `numrows - 1` and the command buffer
empty. -/
theorem G_last_row_nonempty (E : editorConfig) (prev : erow)
    (hn : E.numrows = Int.ofNat E.row.length)
    (hlen : E.cb.length = CB_LEN) (hi : E.cb_i = 0)
    (hprev : deref E (currentRow E) = some prev) :
    ∃ E', editorProcessNormalKeypress (ch 'G') E = Outcome.ret 0 E' ∧
      E'.cy = E.numrows - 1 ∧ E'.cb_i = 0 ∧ E'.cb.getD 0 0 = 0 := by
  obtain ⟨_, h0, h1⟩ := currentRow_of_deref hprev
  obtain ⟨r, hr⟩ := deref_exists E (E.numrows - 1) hn (by omega) (by omega)
  obtain ⟨a0, a1, a2, a3, a4, a5, a6, a7, a8, a9, hcb⟩ := cb_ten hlen
  exact ⟨_, normal_G E prev r hlen hi hprev hr, rfl, rfl, by simp only [hcb]; rfl⟩

/-! ## Where the column reconciliation does what C2 and C4 say -/

theorem feedNormal_cons (c : Int) (cs : List Int) (E E1 : editorConfig)
    (h : feedNormal [c] E = Outcome.ret () E1) : feedNormal (c :: cs) E = feedNormal cs E1 := by
  simp only [feedNormal] at h ⊢
  cases hN : editorProcessNormalKeypress c E with
  | ret v E2 =>
    rw [hN] at h
    simp only [Outcome.ret.injEq, true_and] at h
    rw [h]
  | halt t => rw [hN] at h; exact absurd h (by simp)
  | fault => rw [hN] at h; exact absurd h (by simp)

theorem mem_of_deref (E : editorConfig) (i : Int) (r : erow) (h : deref E (some i) = some r) :
    r ∈ E.row := by
  unfold deref at h
  simp only at h
  split at h
  · exact List.getElem?_mem h
  · exact absurd h (by simp)

/-- Landing on a non-empty row that is too short for the sticky column: when the column
before was at least the last index of that row, or the row left was shorter than it, every
vertical motion puts the cursor on the last index of the row reached. -/
theorem vertical_short_row_last_index (E : editorConfig) (prev : erow) (m : List Int)
    (hm : m ∈ verticalMotions) (hn : E.numrows = Int.ofNat E.row.length)
    (hlen : E.cb.length = CB_LEN) (hi : E.cb_i = 0)
    (hprev : deref E (currentRow E) = some prev) :
    ∃ E' r, feedNormal m E = Outcome.ret () E' ∧ deref E' (currentRow E') = some r ∧
      (0 < r.size → r.size ≤ E.prevColoff → (r.size - 1 ≤ E.cx ∨ prev.size < r.size) →
        E'.cx = r.size - 1) := by
  obtain ⟨r, cb', hr, h0, h1, _, _, hfeed⟩ := vertical_motion E prev m hm hn hlen hi hprev
  refine ⟨_, r, hfeed, ?_, ?_⟩
  · rw [currentRow_eq_some _ (by exact h1), ← hr]; exact deref_row_eq _ _ _ rfl
  · intro hpos hle hco
    show adjCol prev.size r.size E.prevColoff E.cx = r.size - 1
    unfold adjCol
    split_ifs <;> omega

/-- Away from the boundary the column reconciliation is the sticky-column rule: when no row
has a size equal to the sticky column and the cursor column agrees with the sticky column
on the current row, any sequence of `j` and `k` keys returns and the cursor column again
agrees with the sticky column on the row reached. -/
theorem vertical_keeps_coherent (keys : List Int) :
    ∀ (E : editorConfig) (prev : erow), (∀ k ∈ keys, k = ch 'j' ∨ k = ch 'k') →
      E.numrows = Int.ofNat E.row.length → E.cb.length = CB_LEN → E.cb_i = 0 →
      deref E (currentRow E) = some prev →
      (∀ r ∈ E.row, r.size ≠ E.prevColoff) → Coherent E prev.size →
      ∃ E' r, feedNormal keys E = Outcome.ret () E' ∧ deref E' (currentRow E') = some r ∧
        E'.prevColoff = E.prevColoff ∧ Coherent E' r.size := by
  induction keys with
  | nil => intro E prev _ _ _ _ hprev _ hco; exact ⟨E, prev, rfl, hprev, rfl, hco⟩
  | cons k ks ih =>
    intro E prev hk hn hlen hi hprev hno hco
    have hm : [k] ∈ verticalMotions := by
      rcases hk k (List.mem_cons_self _ _) with rfl | rfl <;> decide
    obtain ⟨r, cb', hr, h0, h1, hlen', _, hfeed⟩ := vertical_motion E prev [k] hm hn hlen hi hprev
    have hrne := hno r (mem_of_deref E _ r hr)
    have hpne := hno prev (mem_of_deref E _ prev
      (by rw [← (currentRow_of_deref hprev).1]; exact hprev))
    obtain ⟨E', r', hrun, hrow', hs', hco'⟩ := ih
      { E with cb := cb', cb_i := 0, cy := landingRow E [k],
               cx := adjCol prev.size r.size E.prevColoff E.cx } r
      (fun x hx => hk x (List.mem_cons_of_mem _ hx)) hn hlen' rfl
      (by rw [currentRow_eq_some _ (by exact h1), ← hr]; exact deref_row_eq _ _ _ rfl)
      hno
      (by
        unfold Coherent at hco ⊢
        show (E.prevColoff < r.size ∧ adjCol prev.size r.size E.prevColoff E.cx = E.prevColoff) ∨
          (r.size < E.prevColoff ∧ adjCol prev.size r.size E.prevColoff E.cx = r.size - 1)
        unfold adjCol
        split_ifs <;> omega)
    exact ⟨E', r', by rw [feedNormal_cons k ks E _ hfeed]; exact hrun, hrow', hs', hco'⟩

/-- The sticky-column round trip away from the boundary: under the hypotheses of
`vertical_keeps_coherent`, a sequence of `j` and `k` keys that ends on a row of the size of
the starting row leaves the cursor column where it was. -/
theorem vertical_round_trip_off_boundary (keys : List Int) (E : editorConfig) (prev : erow)
    (hk : ∀ k ∈ keys, k = ch 'j' ∨ k = ch 'k')
    (hn : E.numrows = Int.ofNat E.row.length) (hlen : E.cb.length = CB_LEN) (hi : E.cb_i = 0)
    (hprev : deref E (currentRow E) = some prev)
    (hno : ∀ r ∈ E.row, r.size ≠ E.prevColoff) (hco : Coherent E prev.size) :
    ∃ E' r, feedNormal keys E = Outcome.ret () E' ∧ deref E' (currentRow E') = some r ∧
      (r.size = prev.size → E'.cx = E.cx) := by
  obtain ⟨E', r, hrun, hrow, hs, hco'⟩ :=
    vertical_keeps_coherent keys E prev hk hn hlen hi hprev hno hco
  refine ⟨E', r, hrun, hrow, fun hsz => ?_⟩
  unfold Coherent at hco hco'
  rw [hs, hsz] at hco'
  omega

/-! ## C13: scrolling -/

/-- C13: `editorScroll` sets `rowoff` to `cy` when `cy < rowoff`, to `cy - visibleRows + 1`
when `cy ≥ rowoff + visibleRows` with `visibleRows = screenrows - 2`, and leaves it otherwise;
`coloff` follows the same rule with `screencols` and no margin; the cursor is not moved.
Hence, when `screenrows ≥ 3` and `screencols ≥ 1`, afterwards
`rowoff ≤ cy < rowoff + visibleRows` and `coloff ≤ cx < coloff + screencols`. -/
theorem C13_editorScroll_window (E : editorConfig) :
    (editorScroll E).rowoff =
      (if E.cy < E.rowoff then E.cy
       else if E.cy ≥ E.rowoff + (E.screenrows - 2) then E.cy - (E.screenrows - 2) + 1
       else E.rowoff) ∧
    (editorScroll E).coloff =
      (if E.cx < E.coloff then E.cx
       else if E.cx ≥ E.coloff + E.screencols then E.cx - E.screencols + 1
       else E.coloff) ∧
    (editorScroll E).cy = E.cy ∧ (editorScroll E).cx = E.cx ∧
    (E.screenrows ≥ 3 → E.screencols ≥ 1 →
      (editorScroll E).rowoff ≤ E.cy ∧ E.cy < (editorScroll E).rowoff + (E.screenrows - 2) ∧
      (editorScroll E).coloff ≤ E.cx ∧ E.cx < (editorScroll E).coloff + E.screencols) := by
  have hr : (editorScroll E).rowoff =
      (if E.cy < E.rowoff then E.cy
       else if E.cy ≥ E.rowoff + (E.screenrows - 2) then E.cy - (E.screenrows - 2) + 1
       else E.rowoff) := by
    unfold editorScroll
    simp only
    split_ifs <;> first | rfl | omega | (show E.cy - E.screenrows + 3 = _; omega)
  have hc : (editorScroll E).coloff =
      (if E.cx < E.coloff then E.cx
       else if E.cx ≥ E.coloff + E.screencols then E.cx - E.screencols + 1
       else E.coloff) := by
    unfold editorScroll
    simp only
    split_ifs <;> rfl
  refine ⟨hr, hc, by rw [editorScroll_frame], by rw [editorScroll_frame], ?_⟩
  intro h3 h1
  rw [hr, hc]
  split_ifs <;> omega

/-- C13 on a 24 by 80 screen with the cursor at `(100, 50)` and both offsets 0. -/
theorem C13_editorScroll_window_witness :
    (editorScroll { initEditor 24 80 with cx := 100, cy := 50 }).rowoff = 29 ∧
    (editorScroll { initEditor 24 80 with cx := 100, cy := 50 }).coloff = 21 ∧
    ((editorScroll { initEditor 24 80 with cx := 100, cy := 50 }).rowoff ≤ 50 ∧
      50 < (editorScroll { initEditor 24 80 with cx := 100, cy := 50 }).rowoff + (24 - 2) ∧
      (editorScroll { initEditor 24 80 with cx := 100, cy := 50 }).coloff ≤ 100 ∧
      100 < (editorScroll { initEditor 24 80 with cx := 100, cy := 50 }).coloff + 80) :=
  ⟨by decide, by decide,
   (C13_editorScroll_window { initEditor 24 80 with cx := 100, cy := 50 }).2.2.2.2
     (by decide) (by decide)⟩

/-! ## C11: horizontal bounds -/

/-- A sequence of `h`/`l` keys from an empty buffer, with the cursor in `[0, L]` on an
existing row of size `L`, returns in a state of the same kind on the same row. -/
theorem feed_hl_inv (keys : List Int) :
    ∀ (E : editorConfig) (r : erow), E.cb.length = CB_LEN → E.cb_i = 0 →
      deref E (currentRow E) = some r → 0 ≤ E.cx → E.cx ≤ r.size →
      (∀ k ∈ keys, k = ch 'h' ∨ k = ch 'l') →
      ∃ E', feedNormal keys E = Outcome.ret () E' ∧ E'.cb.length = CB_LEN ∧ E'.cb_i = 0 ∧
        deref E' (currentRow E') = some r ∧ 0 ≤ E'.cx ∧ E'.cx ≤ r.size ∧ E'.cy = E.cy := by
  induction keys with
  | nil => intro E r hlen hi hrow h0 h1 _; exact ⟨E, rfl, hlen, hi, hrow, h0, h1, rfl⟩
  | cons k ks ih =>
    intro E r hlen hi hrow h0 h1 hk
    have hks : ∀ k ∈ ks, k = ch 'h' ∨ k = ch 'l' := fun x hx => hk x (List.mem_cons_of_mem _ hx)
    rcases hk k (List.mem_cons_self _ _) with rfl | rfl
    · obtain ⟨E', hfeed, hrest⟩ := ih
        { E with cb := ((E.cb.set 0 (ch 'h')).set 1 0).set 0 0, cb_i := 0,
                 cx := if E.cx > 0 then E.cx - 1 else E.cx,
                 prevColoff := if E.cx > 0 then E.cx - 1 else E.prevColoff } r
        (by simpa using hlen) rfl (by simpa [deref, currentRow] using hrow)
        (by show 0 ≤ (if E.cx > 0 then E.cx - 1 else E.cx); split <;> omega)
        (by show (if E.cx > 0 then E.cx - 1 else E.cx) ≤ r.size; split <;> omega) hks
      exact ⟨E', by simp only [feedNormal, normal_h E hlen hi]; exact hfeed, hrest⟩
    · obtain ⟨E', hfeed, hrest⟩ := ih
        { E with cb := ((E.cb.set 0 (ch 'l')).set 1 0).set 0 0, cb_i := 0,
                 cx := if E.cx < r.size then E.cx + 1 else E.cx,
                 prevColoff := if E.cx < r.size then E.cx + 1 else E.prevColoff } r
        (by simpa using hlen) rfl (by simpa [deref, currentRow] using hrow)
        (by show 0 ≤ (if E.cx < r.size then E.cx + 1 else E.cx); split <;> omega)
        (by show (if E.cx < r.size then E.cx + 1 else E.cx) ≤ r.size; split <;> omega) hks
      exact ⟨E', by simp only [feedNormal, normal_l E r hlen hi hrow]; exact hfeed, hrest⟩

/-- C11: from a state with an empty command buffer whose cursor is on an existing row of
length `L` at a column in `[0, L]`, after every sequence `ks` of `h`/`l` keys, and after any
further `h` or `l` key `k`, the cursor column is in `[0, L]` and the cursor row is the
starting row; and when the key `k` moved the cursor the sticky column is the new cursor
column, while a key that did not move it leaves the sticky column as it was. -/
theorem C11_horizontal_bounds (E : editorConfig) (r : erow) (ks : List Int) (k : Int)
    (hlen : E.cb.length = CB_LEN) (hi : E.cb_i = 0)
    (hrow : deref E (currentRow E) = some r) (h0 : 0 ≤ E.cx) (h1 : E.cx ≤ r.size)
    (hks : ∀ x ∈ ks, x = ch 'h' ∨ x = ch 'l') (hk : k = ch 'h' ∨ k = ch 'l') :
    ∃ Em E', feedNormal ks E = Outcome.ret () Em ∧
      editorProcessNormalKeypress k Em = Outcome.ret 0 E' ∧
      0 ≤ Em.cx ∧ Em.cx ≤ r.size ∧ Em.cy = E.cy ∧
      0 ≤ E'.cx ∧ E'.cx ≤ r.size ∧ E'.cy = E.cy ∧
      (E'.cx ≠ Em.cx → E'.prevColoff = E'.cx) ∧
      (E'.cx = Em.cx → E'.prevColoff = Em.prevColoff) := by
  obtain ⟨Em, hfeed, hlen', hi', hrow', h0', h1', hcy⟩ := feed_hl_inv ks E r hlen hi hrow h0 h1 hks
  rcases hk with rfl | rfl
  · refine ⟨Em, _, hfeed, normal_h Em hlen' hi', h0', h1', hcy, ?_, ?_, hcy, ?_, ?_⟩
    · show 0 ≤ (if Em.cx > 0 then Em.cx - 1 else Em.cx); split <;> omega
    · show (if Em.cx > 0 then Em.cx - 1 else Em.cx) ≤ r.size; split <;> omega
    · show (if Em.cx > 0 then Em.cx - 1 else Em.cx) ≠ Em.cx →
        (if Em.cx > 0 then Em.cx - 1 else Em.prevColoff) = (if Em.cx > 0 then Em.cx - 1 else Em.cx)
      split <;> simp
    · show (if Em.cx > 0 then Em.cx - 1 else Em.cx) = Em.cx →
        (if Em.cx > 0 then Em.cx - 1 else Em.prevColoff) = Em.prevColoff
      split
      · intro h; omega
      · intro _; rfl
  · refine ⟨Em, _, hfeed, normal_l Em r hlen' hi' hrow', h0', h1', hcy, ?_, ?_, hcy, ?_, ?_⟩
    · show 0 ≤ (if Em.cx < r.size then Em.cx + 1 else Em.cx); split <;> omega
    · show (if Em.cx < r.size then Em.cx + 1 else Em.cx) ≤ r.size; split <;> omega
    · show (if Em.cx < r.size then Em.cx + 1 else Em.cx) ≠ Em.cx →
        (if Em.cx < r.size then Em.cx + 1 else Em.prevColoff)
          = (if Em.cx < r.size then Em.cx + 1 else Em.cx)
      split <;> simp
    · show (if Em.cx < r.size then Em.cx + 1 else Em.cx) = Em.cx →
        (if Em.cx < r.size then Em.cx + 1 else Em.prevColoff) = Em.prevColoff
      split
      · intro h; omega
      · intro _; rfl

/-- C11 at the file `ab`, cursor at column 0, after the keys `h`, `l`, `l`, `l`, next key `h`. -/
theorem C11_horizontal_bounds_witness :
    ∃ Em E', feedNormal [ch 'h', ch 'l', ch 'l', ch 'l'] (startup [[ch 'a', ch 'b']] 24 80)
        = Outcome.ret () Em ∧
      editorProcessNormalKeypress (ch 'h') Em = Outcome.ret 0 E' ∧
      0 ≤ Em.cx ∧ Em.cx ≤ 2 ∧ Em.cy = 0 ∧ 0 ≤ E'.cx ∧ E'.cx ≤ 2 ∧ E'.cy = 0 ∧
      (E'.cx ≠ Em.cx → E'.prevColoff = E'.cx) ∧
      (E'.cx = Em.cx → E'.prevColoff = Em.prevColoff) :=
  C11_horizontal_bounds (startup [[ch 'a', ch 'b']] 24 80)
    { size := 2, chars := [ch 'a', ch 'b'] } [ch 'h', ch 'l', ch 'l', ch 'l'] (ch 'h')
    (by decide) (by decide) (by decide) (by decide) (by decide) (by decide) (Or.inl rfl)

/-! ## What a key can change -/

theorem appendKey_fields (c : Int) (E : editorConfig) :
    (appendKey c E).state = E.state ∧ (appendKey c E).cx = E.cx ∧ (appendKey c E).cy = E.cy ∧
    (appendKey c E).coloff = E.coloff ∧ (appendKey c E).rowoff = E.rowoff ∧
    (appendKey c E).prevColoff = E.prevColoff ∧ (appendKey c E).screenrows = E.screenrows ∧
    (appendKey c E).screencols = E.screencols ∧ (appendKey c E).numrows = E.numrows ∧
    (appendKey c E).row = E.row := by
  rw [appendKey_frame]; exact ⟨rfl, rfl, rfl, rfl, rfl, rfl, rfl, rfl, rfl, rfl⟩

/-- The second `switch` writes nothing but the buffer. -/
theorem suffixSwitch_frame (X : editorConfig) (v : Int) (E' : editorConfig)
    (h : suffixSwitch X = Outcome.ret v E') : E' = { X with cb := E'.cb, cb_i := E'.cb_i } := by
  unfold suffixSwitch at h
  simp only at h
  split_ifs at h <;>
    (simp only [Outcome.ret.injEq] at h
     obtain ⟨_, rfl⟩ := h
     rfl)

/-- The tail of a vertical motion writes nothing but the column and the buffer. -/
theorem adjustThenClear_frame (p : RowPtr) (X : editorConfig) (v : Int) (E' : editorConfig)
    (h : adjustThenClear p X = Outcome.ret v E') :
    E' = { X with cx := E'.cx, cb := E'.cb, cb_i := E'.cb_i } := by
  unfold adjustThenClear at h
  split at h
  · cases h
  · rename_i X1 hX1
    have hf := adjustPrevCol_frame p X X1 hX1
    simp only [Outcome.ret.injEq] at h
    obtain ⟨_, rfl⟩ := h
    rw [hf]; rfl

/-- The fields no key writes: the row store, the offsets and the screen size. -/
theorem normal_static (c : Int) (E : editorConfig) (v : Int) (E' : editorConfig)
    (h : editorProcessNormalKeypress c E = Outcome.ret v E') :
    E'.numrows = E.numrows ∧ E'.row = E.row ∧ E'.coloff = E.coloff ∧ E'.rowoff = E.rowoff ∧
      E'.screenrows = E.screenrows ∧ E'.screencols = E.screencols := by
  obtain ⟨_, _, _, a4, a5, _, a7, a8, a9, a10⟩ := appendKey_fields c E
  unfold editorProcessNormalKeypress at h
  simp only at h
  split_ifs at h
  all_goals first
    | (have hf := adjustThenClear_frame _ _ v E' h
       rw [hf]; exact ⟨a9, a10, a4, a5, a7, a8⟩)
    | (have hf := suffixSwitch_frame _ v E' h
       rw [hf]; exact ⟨a9, a10, a4, a5, a7, a8⟩)
    | (simp only [Outcome.ret.injEq] at h
       obtain ⟨_, rfl⟩ := h
       exact ⟨a9, a10, a4, a5, a7, a8⟩)
    | (split at h
       · simp only [Outcome.ret.injEq] at h
         obtain ⟨_, rfl⟩ := h
         exact ⟨a9, a10, a4, a5, a7, a8⟩
       · split at h
         · exact absurd h (by simp)
         · split_ifs at h <;>
           (simp only [Outcome.ret.injEq] at h
            obtain ⟨_, rfl⟩ := h
            exact ⟨a9, a10, a4, a5, a7, a8⟩))

/-- The mode changes only on the first-character command `i`, and then to Insert. -/
theorem normal_state (c : Int) (E : editorConfig) (v : Int) (E' : editorConfig)
    (h : editorProcessNormalKeypress c E = Outcome.ret v E') :
    E'.state = E.state ∨ ((appendKey c E).cb.getD 0 0 = ch 'i' ∧ E'.state = ST_INSERT) := by
  obtain ⟨a1, _⟩ := appendKey_fields c E
  unfold editorProcessNormalKeypress at h
  simp only at h
  split_ifs at h
  all_goals first
    | (have hf := adjustThenClear_frame _ _ v E' h
       rw [hf]; exact Or.inl a1)
    | (have hf := suffixSwitch_frame _ v E' h
       rw [hf]; exact Or.inl a1)
    | (simp only [Outcome.ret.injEq] at h
       obtain ⟨_, rfl⟩ := h
       first | exact Or.inl a1 | exact Or.inr ⟨by assumption, rfl⟩)
    | (split at h
       · simp only [Outcome.ret.injEq] at h
         obtain ⟨_, rfl⟩ := h
         exact Or.inl a1
       · split at h
         · exact absurd h (by simp)
         · split_ifs at h <;>
           (simp only [Outcome.ret.injEq] at h
            obtain ⟨_, rfl⟩ := h
            exact Or.inl a1))

/-- The sticky column `prevColoff` is written only by the first-character commands `h` and
`l`, only when they move the cursor, and then it is the new cursor column. -/
theorem normal_sticky (c : Int) (E : editorConfig) (v : Int) (E' : editorConfig)
    (h : editorProcessNormalKeypress c E = Outcome.ret v E') :
    E'.prevColoff = E.prevColoff ∨
      (((appendKey c E).cb.getD 0 0 = ch 'h' ∨ (appendKey c E).cb.getD 0 0 = ch 'l') ∧
        E'.cx ≠ E.cx ∧ E'.prevColoff = E'.cx) := by
  obtain ⟨_, a2, _, _, _, a6, _⟩ := appendKey_fields c E
  unfold editorProcessNormalKeypress at h
  simp only at h
  split_ifs at h
  all_goals first
    | (have hf := adjustThenClear_frame _ _ v E' h
       rw [hf]; exact Or.inl a6)
    | (have hf := suffixSwitch_frame _ v E' h
       rw [hf]; exact Or.inl a6)
    | (simp only [Outcome.ret.injEq] at h
       obtain ⟨_, rfl⟩ := h
       first
         | exact Or.inl a6
         | (refine Or.inr ⟨Or.inl (by assumption), ?_, rfl⟩
            show (appendKey c E).cx - 1 ≠ E.cx
            rw [a2]; omega))
    | (split at h
       · simp only [Outcome.ret.injEq] at h
         obtain ⟨_, rfl⟩ := h
         exact Or.inl a6
       · split at h
         · exact absurd h (by simp)
         · split_ifs at h <;>
           (simp only [Outcome.ret.injEq] at h
            obtain ⟨_, rfl⟩ := h
            first
              | exact Or.inl a6
              | (refine Or.inr ⟨Or.inr (by assumption), ?_, rfl⟩
                 show (appendKey c E).cx + 1 ≠ E.cx
                 rw [a2]; omega)))

/-- Whatever the key, the handler keeps the cursor row inside a non-empty row store. -/
theorem normal_rowInv (c : Int) (E : editorConfig) (v : Int) (E' : editorConfig)
    (hinv : RowInv E) (h : editorProcessNormalKeypress c E = Outcome.ret v E') : RowInv E' := by
  obtain ⟨_, _, a3, _, _, _, _, _, a9, a10⟩ := appendKey_fields c E
  obtain ⟨hn, h0, h1⟩ := hinv
  have hn' : (appendKey c E).numrows = Int.ofNat (appendKey c E).row.length := by
    rw [a9, a10]; exact hn
  unfold editorProcessNormalKeypress at h
  simp only at h
  split_ifs at h
  all_goals first
    | (have hf := adjustThenClear_frame _ _ v E' h
       rw [hf]; unfold RowInv; dsimp only
       refine ⟨hn', ?_, ?_⟩ <;> omega)
    | (have hf := suffixSwitch_frame _ v E' h
       rw [hf]; unfold RowInv; dsimp only
       refine ⟨hn', ?_, ?_⟩ <;> omega)
    | (simp only [Outcome.ret.injEq] at h
       obtain ⟨_, rfl⟩ := h
       unfold RowInv clearControlBuffer; dsimp only
       refine ⟨hn', ?_, ?_⟩ <;> omega)
    | (split at h
       · simp only [Outcome.ret.injEq] at h
         obtain ⟨_, rfl⟩ := h
         unfold RowInv clearControlBuffer; dsimp only
         refine ⟨hn', ?_, ?_⟩ <;> omega
       · split at h
         · exact absurd h (by simp)
         · split_ifs at h <;>
           (simp only [Outcome.ret.injEq] at h
            obtain ⟨_, rfl⟩ := h
            unfold RowInv clearControlBuffer; dsimp only
            refine ⟨hn', ?_, ?_⟩ <;> omega))

/-- With the cursor row inside the row store, the current-row lookup yields a row. -/
theorem rowInv_deref (E : editorConfig) (hinv : RowInv E) :
    ∃ r, deref E (currentRow E) = some r := by
  obtain ⟨hn, h0, h1⟩ := hinv
  rw [currentRow_eq_some E (by omega)]
  exact deref_exists E E.cy hn h0 (by omega)

theorem adjustThenClear_ne_fault (p : RowPtr) (X : editorConfig)
    (hp : ∃ prev, deref X p = some prev) (hinv : RowInv X) :
    adjustThenClear p X ≠ Outcome.fault := by
  obtain ⟨prev, hprev⟩ := hp
  obtain ⟨r, hr⟩ := rowInv_deref X hinv
  rw [adjustThenClear_eq X p prev r hprev hr]
  simp

/-- No invalid read: with the cursor row inside the row store and at most eight buffered
keys, `editorProcessNormalKeypress` returns or ends the process, whatever the key. -/
theorem normal_no_fault (c : Int) (E : editorConfig) (hinv : RowInv E)
    (hi : E.cb_i ≤ 8) : editorProcessNormalKeypress c E ≠ Outcome.fault := by
  obtain ⟨_, _, a3, _, _, _, _, _, a9, a10⟩ := appendKey_fields c E
  have hci := appendKey_cb_i c E hi
  obtain ⟨prev, hprev⟩ := rowInv_deref E hinv
  have hcr : currentRow E = some E.cy := currentRow_eq_some E (by have := hinv.2.2; omega)
  obtain ⟨hn, h0, h1⟩ := hinv
  have hn' : (appendKey c E).numrows = Int.ofNat (appendKey c E).row.length := by
    rw [a9, a10]; exact hn
  intro h
  unfold editorProcessNormalKeypress at h
  simp only at h
  split_ifs at h
  all_goals first
    | (refine adjustThenClear_ne_fault _ _ ⟨prev, ?_⟩ ?_ h
       · rw [← hprev]; exact deref_row_eq _ _ _ a10
       · unfold RowInv
         refine ⟨hn', ?_, ?_⟩ <;> (try dsimp only) <;> omega)
    | (rw [suffixSwitch_eq _ (by omega) (by omega)] at h
       split_ifs at h)
    | (rw [hcr] at h
       simp only at h
       have hd : deref (appendKey c E) (some E.cy) = some prev := by
         rw [← hprev, hcr]; exact deref_row_eq _ _ _ a10
       rw [hd] at h
       simp only at h
       cases h)

/-! ## C12: the cursor row stays inside the row store -/

theorem editorOpen_rows (lines : List (List Int)) :
    ∀ E : editorConfig,
      (editorOpen lines E).row.length = E.row.length + lines.length ∧
      (editorOpen lines E).numrows = E.numrows + Int.ofNat lines.length := by
  induction lines with
  | nil => intro E; simp [editorOpen]
  | cons l ls ih =>
    intro E
    obtain ⟨h1, h2⟩ := ih (editorAppendRow (stripEol l) E)
    simp only [editorOpen, List.foldl_cons] at h1 h2 ⊢
    rw [h1, h2]
    simp only [editorAppendRow, List.length_append, List.length_cons, List.length_nil,
      Int.ofNat_eq_coe, Nat.cast_add, Nat.cast_one]
    constructor <;> omega

/-- After loading a file with at least one line the cursor row is inside the row store. -/
theorem startup_rowInv (lines : List (List Int)) (sr sc : Int) (hne : lines ≠ []) :
    RowInv (startup lines sr sc) := by
  obtain ⟨h1, h2⟩ := editorOpen_rows lines (initEditor sr sc)
  have hpos : 0 < lines.length := List.length_pos.mpr hne
  have hcy : (startup lines sr sc).cy = 0 := by rw [startup_frame]; rfl
  unfold RowInv
  rw [hcy]
  unfold startup
  rw [h1, h2]
  simp only [initEditor, List.length_nil, Int.ofNat_eq_coe]
  refine ⟨by omega, by omega, by omega⟩

theorem rowInv_of_eq (E E' : editorConfig) (h1 : E'.numrows = E.numrows) (h2 : E'.row = E.row)
    (h3 : E'.cy = E.cy) (h : RowInv E) : RowInv E' := by
  unfold RowInv at h ⊢
  rw [h1, h2, h3]; exact h

/-- Function `editorProcessKeypress` keeps the cursor row inside the row store, whatever the
key and the mode. -/
theorem keypress_rowInv (c : Int) (E E' : editorConfig) (hinv : RowInv E)
    (h : editorProcessKeypress c E = Outcome.ret () E') : RowInv E' := by
  unfold editorProcessKeypress at h
  simp only at h
  by_cases hs : E.state = ST_NORMAL
  · simp only [hs, if_true] at h
    cases hN : editorProcessNormalKeypress c E with
    | ret v E1 =>
      rw [hN] at h
      simp only [Outcome.ret.injEq, true_and] at h
      have h1 := normal_rowInv c E v E1 hinv hN
      subst h
      split
      · exact rowInv_of_eq E1 _ rfl rfl rfl h1
      · exact h1
    | halt t => rw [hN] at h; exact absurd h (by simp)
    | fault => rw [hN] at h; exact absurd h (by simp)
  · simp only [hs, if_false, Outcome.ret.injEq, true_and] at h
    subst h
    split
    · exact rowInv_of_eq E _ rfl rfl rfl hinv
    · exact hinv

theorem mainLoop_rowInv (keys : List Int) :
    ∀ E E' : editorConfig, RowInv E → mainLoop keys E = Outcome.ret () E' → RowInv E' := by
  induction keys with
  | nil =>
    intro E E' hp h
    simp only [mainLoop, Outcome.ret.injEq, true_and] at h
    exact h ▸ hp
  | cons c cs ih =>
    intro E E' hp h
    simp only [mainLoop, mainStep] at h
    cases hK : editorProcessKeypress c (editorScroll E) with
    | ret v E1 =>
      rw [hK] at h
      have hs : RowInv (editorScroll E) :=
        rowInv_of_eq E _ (by rw [editorScroll_frame]) (by rw [editorScroll_frame])
          (by rw [editorScroll_frame]) hp
      exact ih E1 E' (keypress_rowInv c _ E1 hs hK) h
    | halt t => rw [hK] at h; exact absurd h (by simp)
    | fault => rw [hK] at h; exact absurd h (by simp)

/-- With the cursor row inside the row store and at most eight buffered keys,
`editorProcessKeypress` makes no invalid read. -/
theorem keypress_no_fault (c : Int) (E : editorConfig) (hinv : RowInv E) (hi : E.cb_i ≤ 8) :
    editorProcessKeypress c E ≠ Outcome.fault := by
  unfold editorProcessKeypress
  simp only
  by_cases hs : E.state = ST_NORMAL
  · simp only [hs, if_true]
    have hnf := normal_no_fault c E hinv hi
    cases hN : editorProcessNormalKeypress c E with
    | ret v E1 => simp
    | halt t => simp
    | fault => exact absurd hN hnf
  · simp only [hs, if_false]
    simp

/-- C12: for a non-empty row store, `0 ≤ cy ≤ numrows - 1` (with `numrows` the number of
rows) is preserved by `editorProcessKeypress` for every key in every mode; it holds in every
state the program reaches after loading a file with at least one line; and in such a state the
current-row lookup `(E.cy >= E.numrows) ? NULL : &E.row[E.cy]` yields a row of the row store,
and no key makes `editorProcessKeypress` read outside it. -/
theorem C12_cursor_row_invariant :
    (∀ (E : editorConfig) (c : Int) (E' : editorConfig),
      RowInv E → editorProcessKeypress c E = Outcome.ret () E' → RowInv E') ∧
    (∀ (E : editorConfig) (keys : List Int) (lines : List (List Int)) (sr sc : Int),
      lines ≠ [] → mainLoop keys (startup lines sr sc) = Outcome.ret () E →
      (E.numrows = Int.ofNat E.row.length ∧ 0 ≤ E.cy ∧ E.cy ≤ E.numrows - 1) ∧
      (∃ r, deref E (currentRow E) = some r) ∧
      (∀ c : Int, editorProcessKeypress c E ≠ Outcome.fault)) := by
  refine ⟨fun E c E' hinv h => keypress_rowInv c E E' hinv h, ?_⟩
  intro E keys lines sr sc hne hrun
  have hinv : RowInv E := mainLoop_rowInv keys _ E (startup_rowInv lines sr sc hne) hrun
  have hp : CbPending E := reachable_cbPending E ⟨keys, lines, sr, sc, hrun⟩
  exact ⟨hinv, rowInv_deref E hinv, fun c => keypress_no_fault c E hinv hp.2.1⟩

/-- C12 at the two-row file `abc`, `abcdef`: the key `j` pressed with the cursor at `(2, 0)`
keeps the cursor row in range, and the startup state has it in range. -/
theorem C12_cursor_row_invariant_witness :
    RowInv { stickyState2 with cy := 1, cx := 2, prevColoff := 2 } ∧
    ((startup [[ch 'a', ch 'b', ch 'c'], [ch 'a', ch 'b', ch 'c', ch 'd', ch 'e', ch 'f']] 24 80).numrows
        = Int.ofNat (startup [[ch 'a', ch 'b', ch 'c'],
            [ch 'a', ch 'b', ch 'c', ch 'd', ch 'e', ch 'f']] 24 80).row.length ∧
      0 ≤ (startup [[ch 'a', ch 'b', ch 'c'],
            [ch 'a', ch 'b', ch 'c', ch 'd', ch 'e', ch 'f']] 24 80).cy ∧
      (startup [[ch 'a', ch 'b', ch 'c'], [ch 'a', ch 'b', ch 'c', ch 'd', ch 'e', ch 'f']] 24 80).cy
        ≤ (startup [[ch 'a', ch 'b', ch 'c'],
            [ch 'a', ch 'b', ch 'c', ch 'd', ch 'e', ch 'f']] 24 80).numrows - 1) :=
  ⟨C12_cursor_row_invariant.1 stickyState2 (ch 'j')
      { stickyState2 with cy := 1, cx := 2, prevColoff := 2 } (by decide) (by decide),
   (C12_cursor_row_invariant.2
      (startup [[ch 'a', ch 'b', ch 'c'], [ch 'a', ch 'b', ch 'c', ch 'd', ch 'e', ch 'f']] 24 80)
      [] [[ch 'a', ch 'b', ch 'c'], [ch 'a', ch 'b', ch 'c', ch 'd', ch 'e', ch 'f']] 24 80
      (by decide) (by decide)).1⟩

/-! ## C14: the sticky column is written by effective horizontal motions only -/

/-- On a pending buffer the first buffered character after the append is `h` or `l` only
when the buffer was empty and the key is `h` or `l`. -/
theorem first_char_hl (c : Int) (E : editorConfig) (hp : CbPending E)
    (h : (appendKey c E).cb.getD 0 0 = ch 'h' ∨ (appendKey c E).cb.getD 0 0 = ch 'l') :
    E.cb_i = 0 ∧ (toChar c = ch 'h' ∨ toChar c = ch 'l') := by
  obtain ⟨hlen, hi, _, hpre⟩ := hp
  rw [appendKey_cb0 c E hlen hi] at h
  by_cases hz : E.cb_i = 0
  · simp only [hz, if_true] at h; exact ⟨hz, h⟩
  · simp only [hz, if_false] at h
    have := (hpre (by omega)).1
    unfold prefixKey at this
    push_neg at this
    rcases h with h | h
    · exact absurd h this.2.1
    · exact absurd h this.2.2.2.2.2

/-- C14: in a non-empty row store with the cursor on an existing row and a pending command
buffer, every key either ends the process or returns; when it returns and is not an effective
horizontal motion (the key is neither `h` nor `l`, or keys were already buffered, or the cursor
column did not change), the sticky column `prevColoff` is unchanged; and whenever the sticky
column changes it is the new cursor column. -/
theorem C14_sticky_frame (E : editorConfig) (c : Int) (hinv : RowInv E)
    (hp : CbPending E ∨ Reachable E) :
    (∃ t, editorProcessNormalKeypress c E = Outcome.halt t) ∨
    (∃ v E', editorProcessNormalKeypress c E = Outcome.ret v E' ∧
      (((toChar c ≠ ch 'h' ∧ toChar c ≠ ch 'l') ∨ E.cb_i ≠ 0 ∨ E'.cx = E.cx) →
        E'.prevColoff = E.prevColoff) ∧
      (E'.prevColoff ≠ E.prevColoff → E'.prevColoff = E'.cx)) := by
  have hcb : CbPending E := hp.elim id (reachable_cbPending E)
  cases hN : editorProcessNormalKeypress c E with
  | halt t => exact Or.inl ⟨t, rfl⟩
  | fault => exact absurd hN (normal_no_fault c E hinv hcb.2.1)
  | ret v E' =>
    refine Or.inr ⟨v, E', rfl, ?_, ?_⟩
    · intro hne
      rcases normal_sticky c E v E' hN with hs | ⟨hfirst, hmv, _⟩
      · exact hs
      · obtain ⟨hz, hk⟩ := first_char_hl c E hcb hfirst
        rcases hne with ⟨n1, n2⟩ | n | n
        · rcases hk with hk | hk
          · exact absurd hk n1
          · exact absurd hk n2
        · exact absurd hz n
        · exact absurd n hmv
    · intro hne
      rcases normal_sticky c E v E' hN with hs | ⟨_, _, heq⟩
      · exact absurd hs hne
      · exact heq

/-- C14 at the one-row file `a` with the pending buffer `1g`, key `j`. -/
theorem C14_sticky_frame_witness :
    (∃ t, editorProcessNormalKeypress (ch 'j') pendingState = Outcome.halt t) ∨
    (∃ v E', editorProcessNormalKeypress (ch 'j') pendingState = Outcome.ret v E' ∧
      (((toChar (ch 'j') ≠ ch 'h' ∧ toChar (ch 'j') ≠ ch 'l') ∨ pendingState.cb_i ≠ 0 ∨
          E'.cx = pendingState.cx) → E'.prevColoff = pendingState.prevColoff) ∧
      (E'.prevColoff ≠ pendingState.prevColoff → E'.prevColoff = E'.cx)) :=
  C14_sticky_frame pendingState (ch 'j') (by decide) (Or.inl (by decide))

/-! ## C15: the mode -/

/-- A property kept by `editorScroll` and by every returning `editorProcessKeypress` holds
after any run of the loop of `main`. -/
theorem mainLoop_invariant (P : editorConfig → Prop)
    (hscroll : ∀ E, P E → P (editorScroll E))
    (hkey : ∀ c E E', P E → editorProcessKeypress c E = Outcome.ret () E' → P E')
    (keys : List Int) :
    ∀ E E' : editorConfig, P E → mainLoop keys E = Outcome.ret () E' → P E' := by
  induction keys with
  | nil =>
    intro E E' hp h
    simp only [mainLoop, Outcome.ret.injEq, true_and] at h
    exact h ▸ hp
  | cons c cs ih =>
    intro E E' hp h
    simp only [mainLoop, mainStep] at h
    cases hK : editorProcessKeypress c (editorScroll E) with
    | ret v E1 =>
      rw [hK] at h
      exact ih E1 E' (hkey c _ E1 (hscroll E hp) hK) h
    | halt t => rw [hK] at h; exact absurd h (by simp)
    | fault => rw [hK] at h; exact absurd h (by simp)

/-- What `editorProcessKeypress` does to the mode: the result is Normal, or the mode before,
or Insert reached from Normal by a first buffered character `i`. -/
theorem keypress_state (c : Int) (E E' : editorConfig)
    (h : editorProcessKeypress c E = Outcome.ret () E') :
    E'.state = ST_NORMAL ∨ E'.state = E.state ∨
      (E.state = ST_NORMAL ∧ (appendKey c E).cb.getD 0 0 = ch 'i' ∧ E'.state = ST_INSERT) := by
  unfold editorProcessKeypress at h
  simp only at h
  by_cases hs : E.state = ST_NORMAL
  · simp only [hs, if_true] at h
    cases hN : editorProcessNormalKeypress c E with
    | ret v E1 =>
      rw [hN] at h
      simp only [Outcome.ret.injEq, true_and] at h
      subst h
      split
      · exact Or.inl rfl
      · rcases normal_state c E v E1 hN with h1 | ⟨h1, h2⟩
        · exact Or.inr (Or.inl h1)
        · exact Or.inr (Or.inr ⟨hs, h1, h2⟩)
    | halt t => rw [hN] at h; exact absurd h (by simp)
    | fault => rw [hN] at h; exact absurd h (by simp)
  · simp only [hs, if_false, Outcome.ret.injEq, true_and] at h
    subst h
    split
    · exact Or.inl rfl
    · exact Or.inr (Or.inl rfl)

/-- The key `i` on an empty buffer. -/
theorem normal_i (E : editorConfig) (hlen : E.cb.length = CB_LEN) (hi : E.cb_i = 0) :
    editorProcessNormalKeypress (ch 'i') E =
      Outcome.ret 0 { E with cb := ((E.cb.set 0 (ch 'i')).set 1 0).set 0 0, cb_i := 0,
                             state := ST_INSERT } := by
  obtain ⟨a0, a1, a2, a3, a4, a5, a6, a7, a8, a9, hcb⟩ := cb_ten hlen
  rcases E with ⟨st, cb, cbi, cx, cy, co, ro, pc, sr, sc, nr, rows⟩
  simp only at hcb hi
  subst hcb hi
  simp [editorProcessNormalKeypress, appendKey, CB_LEN, toChar, clearControlBuffer]

/-- C15: in every state the program reaches from a startup state the mode is Normal or
Insert, never Visual; a returning `editorProcessKeypress` that goes from a mode other than
Insert to Insert started in Normal mode and had, on a pending buffer, an empty buffer and the
key `i`; and the key `i` on an empty buffer in Normal mode does enter Insert mode. -/
theorem C15_visual_unreachable :
    (∀ E : editorConfig, Reachable E →
      (E.state = ST_NORMAL ∨ E.state = ST_INSERT) ∧ E.state ≠ ST_VISUAL) ∧
    (∀ (E : editorConfig) (c : Int) (E' : editorConfig), (CbPending E ∨ Reachable E) →
      editorProcessKeypress c E = Outcome.ret () E' → E.state ≠ ST_INSERT →
      E'.state = ST_INSERT → E.state = ST_NORMAL ∧ E.cb_i = 0 ∧ toChar c = ch 'i') ∧
    (∀ E : editorConfig, E.state = ST_NORMAL → E.cb.length = CB_LEN → E.cb_i = 0 →
      ∃ E', editorProcessKeypress (ch 'i') E = Outcome.ret () E' ∧ E'.state = ST_INSERT) := by
  refine ⟨?_, ?_, ?_⟩
  · intro E ⟨keys, lines, sr, sc, hrun⟩
    have hmode : E.state = ST_NORMAL ∨ E.state = ST_INSERT := by
      refine mainLoop_invariant (fun E => E.state = ST_NORMAL ∨ E.state = ST_INSERT)
        (fun E h => by rw [editorScroll_frame]; exact h)
        (fun c E E' hP h => ?_) keys (startup lines sr sc) E
        (Or.inl (by rw [startup_frame]; rfl)) hrun
      rcases keypress_state c E E' h with h1 | h1 | ⟨_, _, h1⟩
      · exact Or.inl h1
      · show E'.state = ST_NORMAL ∨ E'.state = ST_INSERT
        rw [h1]; exact hP
      · exact Or.inr h1
    refine ⟨hmode, ?_⟩
    rcases hmode with h | h <;> rw [h] <;> decide
  · intro E c E' hp h hne hins
    have hcb : CbPending E := hp.elim id (reachable_cbPending E)
    rcases keypress_state c E E' h with h1 | h1 | ⟨hs, hfirst, _⟩
    · rw [hins] at h1; exact absurd h1 (by decide)
    · rw [hins] at h1; exact absurd h1.symm hne
    · rw [appendKey_cb0 c E hcb.1 hcb.2.1] at hfirst
      by_cases hz : E.cb_i = 0
      · simp only [hz, if_true] at hfirst; exact ⟨hs, hz, hfirst⟩
      · simp only [hz, if_false] at hfirst
        have := (hcb.2.2.2 (by omega)).1
        unfold prefixKey at this
        push_neg at this
        exact absurd hfirst this.2.2.1
  · intro E hs hlen hi
    refine ⟨{ E with cb := ((E.cb.set 0 (ch 'i')).set 1 0).set 0 0, cb_i := 0,
                     state := ST_INSERT }, ?_, rfl⟩
    unfold editorProcessKeypress
    simp only [hs, if_true, normal_i E hlen hi]
    rw [if_neg (by decide)]

/-- C15 at the state reached by the keys `1`, `g` on the file `a`, and at the key `i` typed
in the startup state of that file. -/
theorem C15_visual_unreachable_witness :
    ((pendingState.state = ST_NORMAL ∨ pendingState.state = ST_INSERT) ∧
      pendingState.state ≠ ST_VISUAL) ∧
    ((startup [[ch 'a']] 24 80).state = ST_NORMAL ∧ (startup [[ch 'a']] 24 80).cb_i = 0 ∧
      toChar (ch 'i') = ch 'i') :=
  ⟨C15_visual_unreachable.1 pendingState ⟨[ch '1', ch 'g'], [[ch 'a']], 24, 80, by decide⟩,
   C15_visual_unreachable.2.1 (startup [[ch 'a']] 24 80) (ch 'i') insertState
     (Or.inl (by decide)) (by decide) (by decide) (by decide)⟩

/-! ## C16: unrecognised input -/

/-- When, after the append, the buffer begins neither with a first-character command nor
with `gg`, the key reaches the second `switch`. -/
theorem normal_to_suffix (c : Int) (E : editorConfig)
    (hnp : ¬ prefixKey ((appendKey c E).cb.getD 0 0))
    (hgg : (appendKey c E).cb.getD 0 0 = ch 'g' → (appendKey c E).cb.getD 1 0 ≠ ch 'g') :
    editorProcessNormalKeypress c E = suffixSwitch (appendKey c E) := by
  unfold prefixKey at hnp
  push_neg at hnp
  obtain ⟨nG, nh, ni, nj, nk, nl⟩ := hnp
  unfold editorProcessNormalKeypress
  simp only
  by_cases hg : (appendKey c E).cb.getD 0 0 = ch 'g'
  · rw [if_pos hg, if_neg (hgg hg)]
  · rw [if_neg hg, if_neg nG, if_neg nh, if_neg ni, if_neg nj, if_neg nk, if_neg nl]

/-- A key typed on a non-empty pending buffer reaches the second `switch`, unless the buffer
is the lone `g` and the key is `g`. -/
theorem normal_pending_to_suffix (c : Int) (E : editorConfig) (hp : CbPending E)
    (h1 : 1 ≤ E.cb_i) (hg : E.cb.getD 0 0 = ch 'g' → E.cb_i = 1 → toChar c ≠ ch 'g') :
    editorProcessNormalKeypress c E = suffixSwitch (appendKey c E) := by
  obtain ⟨hlen, hi, _, hpre⟩ := hp
  have hz : ¬ E.cb_i = 0 := by omega
  have e0 := appendKey_cb0 c E hlen hi
  have e1 := appendKey_cb1 c E hlen hi
  simp only [hz, if_false] at e0 e1
  apply normal_to_suffix
  · rw [e0]; exact (hpre h1).1
  · rw [e0, e1]
    intro hg0
    by_cases ho : E.cb_i = 1
    · simp only [ho, if_true]; exact hg hg0 ho
    · simp only [ho, if_false]; exact (hpre h1).2 hg0

/-- C16: on a pending buffer that begins with `:` and whose second buffered character is not
`q` (the buffer `:` included), a newline or carriage return returns, leaves the buffer empty
and changes nothing else (cursor, sticky column, mode and rows); and on a pending buffer of
eight keys, a key that is neither `:` nor a newline nor a carriage return returns, empties
the buffer and changes nothing else. -/
theorem C16_unrecognised_ignored :
    (∀ (E : editorConfig) (nl : Int), (CbPending E ∨ Reachable E) → (nl = 10 ∨ nl = 13) →
      1 ≤ E.cb_i → E.cb.getD 0 0 = ch ':' → (2 ≤ E.cb_i → E.cb.getD 1 0 ≠ ch 'q') →
      ∃ E', editorProcessNormalKeypress nl E = Outcome.ret 0 E' ∧
        E'.cb_i = 0 ∧ E'.cb.getD 0 0 = 0 ∧ E' = { E with cb := E'.cb, cb_i := E'.cb_i }) ∧
    (∀ (E : editorConfig) (c : Int), (CbPending E ∨ Reachable E) → E.cb_i = 8 →
      toChar c ≠ ch ':' → toChar c ≠ 10 → toChar c ≠ 13 →
      ∃ E', editorProcessNormalKeypress c E = Outcome.ret 0 E' ∧
        E'.cb_i = 0 ∧ E'.cb.getD 0 0 = 0 ∧ E' = { E with cb := E'.cb, cb_i := E'.cb_i }) := by
  constructor
  · intro E nl hp hnl h1 h0 hq
    have hcb : CbPending E := hp.elim id (reachable_cbPending E)
    have hlen := hcb.1
    have hi := hcb.2.1
    have hci := appendKey_cb_i nl E hi
    have hl := (appendKey_length nl E).trans hlen
    have ht : toChar nl = nl := by rcases hnl with rfl | rfl <;> decide
    have hlast : (appendKey nl E).cb.getD ((appendKey nl E).cb_i - 1) 0 = nl := by
      have hla := appendKey_last nl E hlen hi
      rw [ht] at hla
      rw [hci]; exact hla
    have hz : ¬ E.cb_i = 0 := by omega
    have e1 := appendKey_cb1 nl E hlen hi
    simp only [hz, if_false] at e1
    have hnq : (appendKey nl E).cb.getD 1 0 ≠ ch 'q' := by
      rw [e1]
      by_cases ho : E.cb_i = 1
      · simp only [ho, if_true, ht]; rcases hnl with rfl | rfl <;> decide
      · simp only [ho, if_false]; exact hq (by omega)
    have hnc : ¬ nl = ch ':' := by rcases hnl with rfl | rfl <;> decide
    rw [normal_pending_to_suffix nl E hcb h1
        (fun hg => absurd (h0.symm.trans hg) (by decide)),
      suffixSwitch_eq _ (by omega) (by omega), hlast, if_neg hnc, if_pos hnl,
      if_neg (fun h => hnq h.2)]
    obtain ⟨a0, a1, a2, a3, a4, a5, a6, a7, a8, a9, hX⟩ := cb_ten hl
    refine ⟨_, rfl, rfl, by simp only [hX]; rfl, ?_⟩
    conv_lhs => rw [appendKey_frame nl E]
  · intro E c hp h8 hk3 hk4 hk5
    have hcb : CbPending E := hp.elim id (reachable_cbPending E)
    have hlen := hcb.1
    have hi := hcb.2.1
    have hci := appendKey_cb_i c E hi
    have hl := (appendKey_length c E).trans hlen
    have hlast : (appendKey c E).cb.getD ((appendKey c E).cb_i - 1) 0 = toChar c := by
      rw [hci]; exact appendKey_last c E hlen hi
    rw [normal_pending_to_suffix c E hcb (by omega) (fun _ ho => absurd ho (by omega)),
      suffixSwitch_eq _ (by omega) (by omega), hlast, if_neg hk3,
      if_neg (by rintro (h | h); exact hk4 h; exact hk5 h), if_pos (by omega)]
    obtain ⟨a0, a1, a2, a3, a4, a5, a6, a7, a8, a9, hX⟩ := cb_ten hl
    refine ⟨_, rfl, rfl, by simp only [hX]; rfl, ?_⟩
    conv_lhs => rw [appendKey_frame c E]

/-- C16 at the buffer `:w` ended by a carriage return, and at a ninth digit typed on eight. -/
theorem C16_unrecognised_ignored_witness :
    (∃ E', editorProcessNormalKeypress 13 colonState = Outcome.ret 0 E' ∧
      E'.cb_i = 0 ∧ E'.cb.getD 0 0 = 0 ∧ E' = { colonState with cb := E'.cb, cb_i := E'.cb_i }) ∧
    (∃ E', editorProcessNormalKeypress (ch '9') fullState = Outcome.ret 0 E' ∧
      E'.cb_i = 0 ∧ E'.cb.getD 0 0 = 0 ∧ E' = { fullState with cb := E'.cb, cb_i := E'.cb_i }) :=
  ⟨C16_unrecognised_ignored.1 colonState 13 (Or.inl (by decide)) (Or.inr rfl) (by decide)
      (by decide) (fun _ => by decide),
   C16_unrecognised_ignored.2 fullState (ch '9') (Or.inl (by decide)) (by decide) (by decide)
      (by decide) (by decide)⟩

/-! ## C17: the first-character table and the suffix rules -/

theorem adjustThenClear_cleared (p : RowPtr) (X : editorConfig) (v : Int) (E' : editorConfig)
    (h : adjustThenClear p X = Outcome.ret v E') :
    v = 0 ∧ E'.cb_i = 0 ∧ E'.cb = X.cb.set 0 0 := by
  unfold adjustThenClear at h
  split at h
  · cases h
  · rename_i X1 hX1
    have hf := adjustPrevCol_frame p X X1 hX1
    simp only [Outcome.ret.injEq] at h
    obtain ⟨rfl, rfl⟩ := h
    refine ⟨rfl, rfl, ?_⟩
    rw [hf]; rfl

theorem adjustThenClear_ne_halt (p : RowPtr) (X : editorConfig) (t : List Effect) :
    adjustThenClear p X ≠ Outcome.halt t := by
  unfold adjustThenClear
  split <;> simp

/-- A call that ends the process went through the second `switch`. -/
theorem normal_halt_suffix (c : Int) (E : editorConfig) (t : List Effect)
    (h : editorProcessNormalKeypress c E = Outcome.halt t) :
    suffixSwitch (appendKey c E) = Outcome.halt t ∧
      ¬ prefixKey ((appendKey c E).cb.getD 0 0) ∧
      ((appendKey c E).cb.getD 0 0 = ch 'g' → (appendKey c E).cb.getD 1 0 ≠ ch 'g') := by
  unfold editorProcessNormalKeypress at h
  simp only at h
  split_ifs at h
  all_goals first
    | exact absurd h (adjustThenClear_ne_halt _ _ t)
    | exact ⟨h,
        (by
          unfold prefixKey
          rintro (h' | h' | h' | h' | h' | h') <;> first
            | contradiction
            | (have hg : (appendKey c E).cb.getD 0 0 = ch 'g' := by assumption
               rw [hg] at h'; revert h'; decide)),
        (by intro hg'; first | contradiction | assumption)⟩
    | (split at h
       · cases h
       · split at h
         · cases h
         · split_ifs at h)

/-- A call that returns either went through the second `switch`, or was consumed by the
first-character table, which returns 0 with the buffer cleared. -/
theorem normal_ret_cases (c : Int) (E : editorConfig) (v : Int) (E' : editorConfig)
    (h : editorProcessNormalKeypress c E = Outcome.ret v E') :
    (suffixSwitch (appendKey c E) = Outcome.ret v E' ∧
      ¬ prefixKey ((appendKey c E).cb.getD 0 0) ∧
      ((appendKey c E).cb.getD 0 0 = ch 'g' → (appendKey c E).cb.getD 1 0 ≠ ch 'g')) ∨
    (v = 0 ∧ E'.cb_i = 0 ∧ E'.cb = (appendKey c E).cb.set 0 0) := by
  unfold editorProcessNormalKeypress at h
  simp only at h
  split_ifs at h
  all_goals first
    | (have hc := adjustThenClear_cleared _ _ v E' h
       exact Or.inr hc)
    | exact Or.inl ⟨h,
        (by
          unfold prefixKey
          rintro (h' | h' | h' | h' | h' | h') <;> first
            | contradiction
            | (have hg : (appendKey c E).cb.getD 0 0 = ch 'g' := by assumption
               rw [hg] at h'; revert h'; decide)),
        (by intro hg'; first | contradiction | assumption)⟩
    | (simp only [Outcome.ret.injEq] at h
       obtain ⟨rfl, rfl⟩ := h
       exact Or.inr ⟨rfl, rfl, rfl⟩)
    | (split at h
       · simp only [Outcome.ret.injEq] at h
         obtain ⟨rfl, rfl⟩ := h
         exact Or.inr ⟨rfl, rfl, rfl⟩
       · split at h
         · cases h
         · split_ifs at h <;>
           (simp only [Outcome.ret.injEq] at h
            obtain ⟨rfl, rfl⟩ := h
            exact Or.inr ⟨rfl, rfl, rfl⟩))

/-- C17, as stated, fails: with the lone `g` in the buffer, the key `:` makes the buffer
begin with `g`, yet the colon rule is applied and the buffer becomes `:`. -/
theorem C17_counterexample :
    gState.cb_i = 1 ∧ gState.cb.getD 0 0 = ch 'g' ∧
    (appendKey (ch ':') gState).cb.getD 0 0 = ch 'g' ∧
    editorProcessNormalKeypress (ch ':') gState
      = Outcome.ret 0 { gState with cb := [ch ':', 0, 0, 0, 0, 0, 0, 0, 0, 0], cb_i := 1 } := by
  refine ⟨by decide, by decide, by decide, by decide⟩

/-- C17 (amended): when, after the key is appended, the command buffer begins with one of
`G`, `h`, `i`, `j`, `k`, `l`, or with `g` followed by `g`, the keystroke is consumed by the
first-character table and no suffix rule is applied, whatever the appended key: the call
never ends the process, every return is a return of 0 with the buffer cleared, and with the
cursor on an existing row the call does return.  When the buffer begins with `g` followed by
another character, the key goes on to the suffix rules. -/
theorem C17_prefix_before_suffix (E : editorConfig) (c : Int)
    (hlen : E.cb.length = CB_LEN) (hi : E.cb_i ≤ 8) :
    ((prefixKey ((appendKey c E).cb.getD 0 0) ∨
        ((appendKey c E).cb.getD 0 0 = ch 'g' ∧ (appendKey c E).cb.getD 1 0 = ch 'g')) →
      (∀ t, editorProcessNormalKeypress c E ≠ Outcome.halt t) ∧
      (∀ v E', editorProcessNormalKeypress c E = Outcome.ret v E' →
        v = 0 ∧ E'.cb_i = 0 ∧ E'.cb.getD 0 0 = 0) ∧
      (RowInv E → ∃ E', editorProcessNormalKeypress c E = Outcome.ret 0 E')) ∧
    (((appendKey c E).cb.getD 0 0 = ch 'g' ∧ (appendKey c E).cb.getD 1 0 ≠ ch 'g') →
      editorProcessNormalKeypress c E = suffixSwitch (appendKey c E)) := by
  have hl := (appendKey_length c E).trans hlen
  constructor
  · intro hfirst
    have hno : ¬ (¬ prefixKey ((appendKey c E).cb.getD 0 0) ∧
        ((appendKey c E).cb.getD 0 0 = ch 'g' → (appendKey c E).cb.getD 1 0 ≠ ch 'g')) := by
      rintro ⟨h1, h2⟩
      rcases hfirst with hp | ⟨hg, hgg⟩
      · exact h1 hp
      · exact h2 hg hgg
    have hret : ∀ v E', editorProcessNormalKeypress c E = Outcome.ret v E' →
        v = 0 ∧ E'.cb_i = 0 ∧ E'.cb.getD 0 0 = 0 := by
      intro v E' h
      rcases normal_ret_cases c E v E' h with ⟨_, h1, h2⟩ | ⟨hv, hcbi, hcb⟩
      · exact absurd ⟨h1, h2⟩ hno
      · obtain ⟨a0, a1, a2, a3, a4, a5, a6, a7, a8, a9, hX⟩ := cb_ten hl
        exact ⟨hv, hcbi, by rw [hcb, hX]; rfl⟩
    refine ⟨?_, hret, ?_⟩
    · intro t h
      obtain ⟨_, h1, h2⟩ := normal_halt_suffix c E t h
      exact hno ⟨h1, h2⟩
    · intro hinv
      cases hN : editorProcessNormalKeypress c E with
      | ret v E' =>
        obtain ⟨rfl, _⟩ := hret v E' hN
        exact ⟨E', rfl⟩
      | halt t =>
        obtain ⟨_, h1, h2⟩ := normal_halt_suffix c E t hN
        exact absurd ⟨h1, h2⟩ hno
      | fault => exact absurd hN (normal_no_fault c E hinv hi)
  · rintro ⟨hg, hgg⟩
    exact normal_to_suffix c E (by rw [hg]; decide) (fun _ => hgg)

/-- C17 (amended) at the two-row file `abc`, `abcdef`, key `j` on the empty buffer: the
buffer then begins with `j`. -/
theorem C17_prefix_before_suffix_witness :
    (∀ t, editorProcessNormalKeypress (ch 'j') stickyState ≠ Outcome.halt t) ∧
    (∀ v E', editorProcessNormalKeypress (ch 'j') stickyState = Outcome.ret v E' →
      v = 0 ∧ E'.cb_i = 0 ∧ E'.cb.getD 0 0 = 0) ∧
    (RowInv stickyState → ∃ E', editorProcessNormalKeypress (ch 'j') stickyState = Outcome.ret 0 E') :=
  (C17_prefix_before_suffix stickyState (ch 'j') (by decide) (by decide)).1
    (Or.inl (by decide))

/-! ## C18: junk in the buffer swallows motions -/

/-- C18: on a buffer of one to eight keys whose first character is none of `g`, `G`, `h`,
`i`, `j`, `k`, `l`, each of the keys `h`, `j`, `k`, `l`, `G`, `i`, `g` returns and changes
nothing but the buffer (cursor, sticky column, mode and rows stay): below eight keys it is
appended and the call returns 1, at eight keys the buffer is cleared; and for any key, a
return that does not leave the buffer one key longer comes from `:`, from a newline or
carriage return, or from reaching nine keys. -/
theorem C18_pending_junk (E : editorConfig) (k c : Int)
    (hlen : E.cb.length = CB_LEN) (h1 : 1 ≤ E.cb_i) (h8 : E.cb_i ≤ 8)
    (hnp : ¬ prefixKey (E.cb.getD 0 0)) (hg : E.cb.getD 0 0 ≠ ch 'g')
    (hk : k ∈ [ch 'h', ch 'j', ch 'k', ch 'l', ch 'G', ch 'i', ch 'g']) :
    (∃ v E', editorProcessNormalKeypress k E = Outcome.ret v E' ∧
      E' = { E with cb := E'.cb, cb_i := E'.cb_i } ∧
      (E.cb_i < 8 → v = 1 ∧ E'.cb_i = E.cb_i + 1 ∧ E'.cb.getD 0 0 = E.cb.getD 0 0) ∧
      (E.cb_i = 8 → v = 0 ∧ E'.cb_i = 0)) ∧
    (∀ v E', editorProcessNormalKeypress c E = Outcome.ret v E' → E'.cb_i ≠ E.cb_i + 1 →
      toChar c = ch ':' ∨ toChar c = 10 ∨ toChar c = 13 ∨ E.cb_i = 8) := by
  have hz : ¬ E.cb_i = 0 := by omega
  have key : ∀ x : Int, editorProcessNormalKeypress x E = suffixSwitch (appendKey x E) ∧
      (appendKey x E).cb.getD 0 0 = E.cb.getD 0 0 ∧
      (appendKey x E).cb_i = E.cb_i + 1 ∧
      (appendKey x E).cb.getD ((appendKey x E).cb_i - 1) 0 = toChar x := by
    intro x
    have e0 := appendKey_cb0 x E hlen h8
    simp only [hz, if_false] at e0
    have hci := appendKey_cb_i x E h8
    refine ⟨normal_to_suffix x E (by rw [e0]; exact hnp) (fun h => absurd (e0 ▸ h) hg), e0, hci, ?_⟩
    rw [hci]; exact appendKey_last x E hlen h8
  constructor
  · obtain ⟨hN, e0, hci, hlast⟩ := key k
    have hkk : toChar k ≠ ch ':' ∧ toChar k ≠ 10 ∧ toChar k ≠ 13 := by
      simp only [List.mem_cons, List.mem_singleton, List.mem_nil_iff, or_false] at hk
      rcases hk with rfl | rfl | rfl | rfl | rfl | rfl | rfl <;> decide
    rw [hN, suffixSwitch_eq _ (by omega) (by omega), hlast, if_neg hkk.1,
      if_neg (by rintro (h | h); exact hkk.2.1 h; exact hkk.2.2 h)]
    by_cases h9 : (appendKey k E).cb_i = 9
    · rw [if_pos h9]
      refine ⟨0, _, rfl, ?_, fun h => by omega, fun _ => ⟨rfl, rfl⟩⟩
      conv_lhs => rw [appendKey_frame k E]
    · rw [if_neg h9]
      exact ⟨1, _, rfl, appendKey_frame k E, fun _ => ⟨rfl, hci, e0⟩, fun h => by omega⟩
  · intro v E' h hne
    obtain ⟨hN, _, hci, hlast⟩ := key c
    by_contra hcon
    push_neg at hcon
    obtain ⟨n1, n2, n3, n4⟩ := hcon
    rw [hN, suffixSwitch_eq _ (by omega) (by omega), hlast, if_neg n1,
      if_neg (by rintro (h | h); exact n2 h; exact n3 h), if_neg (by omega)] at h
    simp only [Outcome.ret.injEq] at h
    obtain ⟨_, rfl⟩ := h
    exact hne hci

/-- C18 at the one-row file `a` with the buffer `:w`: the key `j`, and the key `1`. -/
theorem C18_pending_junk_witness :
    (∃ v E', editorProcessNormalKeypress (ch 'j') colonState = Outcome.ret v E' ∧
      E' = { colonState with cb := E'.cb, cb_i := E'.cb_i } ∧
      (colonState.cb_i < 8 → v = 1 ∧ E'.cb_i = colonState.cb_i + 1 ∧
        E'.cb.getD 0 0 = colonState.cb.getD 0 0) ∧
      (colonState.cb_i = 8 → v = 0 ∧ E'.cb_i = 0)) ∧
    (∀ v E', editorProcessNormalKeypress (ch '1') colonState = Outcome.ret v E' →
      E'.cb_i ≠ colonState.cb_i + 1 →
      toChar (ch '1') = ch ':' ∨ toChar (ch '1') = 10 ∨ toChar (ch '1') = 13 ∨
        colonState.cb_i = 8) :=
  C18_pending_junk colonState (ch 'j') (ch '1') (by decide) (by decide) (by decide) (by decide)
    (by decide) (by decide)

/-! ## C19: Escape in Normal mode -/

/-- C19: in Normal mode with an empty command buffer, `editorProcessKeypress` on the key 0x1b
returns in Normal mode with the key appended: the buffer has length 1 and holds 0x1b before
the terminator, nothing else changes; and a following `j` returns without moving the
cursor. -/
theorem C19_escape_is_buffered (E : editorConfig) (hs : E.state = ST_NORMAL)
    (hlen : E.cb.length = CB_LEN) (hi : E.cb_i = 0) :
    ∃ E1 E2, editorProcessKeypress 0x1b E = Outcome.ret () E1 ∧
      E1.state = ST_NORMAL ∧ E1.cb_i = 1 ∧ E1.cb.getD 0 0 = 0x1b ∧ E1.cb.getD 1 0 = 0 ∧
      E1 = { E with cb := E1.cb, cb_i := E1.cb_i } ∧
      editorProcessKeypress (ch 'j') E1 = Outcome.ret () E2 ∧
      E2.cy = E.cy ∧ E2.cx = E.cx ∧ E2.cb_i = 2 := by
  obtain ⟨a0, a1, a2, a3, a4, a5, a6, a7, a8, a9, hcb⟩ := cb_ten hlen
  rcases E with ⟨st, cb, cbi, cx, cy, co, ro, pc, sr, sc, nr, rows⟩
  simp only at hcb hi hs
  subst hcb hi hs
  refine ⟨{ state := ST_NORMAL, cb := [0x1b, 0, a2, a3, a4, a5, a6, a7, a8, a9], cb_i := 1,
            cx := cx, cy := cy, coloff := co, rowoff := ro, prevColoff := pc,
            screenrows := sr, screencols := sc, numrows := nr, row := rows },
          { state := ST_NORMAL, cb := [0x1b, ch 'j', 0, a3, a4, a5, a6, a7, a8, a9], cb_i := 2,
            cx := cx, cy := cy, coloff := co, rowoff := ro, prevColoff := pc,
            screenrows := sr, screencols := sc, numrows := nr, row := rows },
          ?_, rfl, rfl, rfl, rfl, rfl, ?_, rfl, rfl, rfl⟩
  · simp [editorProcessKeypress, editorProcessNormalKeypress, appendKey, CB_LEN, toChar,
      suffixSwitch, ESC, ST_NORMAL]
  · simp [editorProcessKeypress, editorProcessNormalKeypress, appendKey, CB_LEN, toChar,
      suffixSwitch, ESC, ST_NORMAL, CTRL_KEY]

/-- C19 at the two-row file `abc`, `abcdef` with the cursor on row 0: Escape then `j` leaves
the cursor on row 0. -/
theorem C19_escape_is_buffered_witness :
    ∃ E1 E2, editorProcessKeypress 0x1b stickyState = Outcome.ret () E1 ∧
      E1.state = ST_NORMAL ∧ E1.cb_i = 1 ∧ E1.cb.getD 0 0 = 0x1b ∧ E1.cb.getD 1 0 = 0 ∧
      E1 = { stickyState with cb := E1.cb, cb_i := E1.cb_i } ∧
      editorProcessKeypress (ch 'j') E1 = Outcome.ret () E2 ∧
      E2.cy = stickyState.cy ∧ E2.cx = stickyState.cx ∧ E2.cb_i = 2 :=
  C19_escape_is_buffered stickyState (by decide) (by decide) (by decide)

/-! ## C20: when the process ends -/

/-- The second `switch` ends the process exactly on a newline or carriage return that
follows `:q`, and then by the writes of `clearScreen` and `exit(0)`. -/
theorem suffixSwitch_halt_iff (X : editorConfig) (t : List Effect)
    (h1 : 1 ≤ X.cb_i) (h2 : X.cb_i ≤ 9) :
    suffixSwitch X = Outcome.halt t ↔
      ((X.cb.getD (X.cb_i - 1) 0 = 10 ∨ X.cb.getD (X.cb_i - 1) 0 = 13) ∧
        X.cb.getD 0 0 = ch ':' ∧ X.cb.getD 1 0 = ch 'q' ∧
        t = clearScreen ++ [Effect.exit 0]) := by
  rw [suffixSwitch_eq X h1 h2]
  constructor
  · intro h
    split_ifs at h with hc hn hq
    simp only [Outcome.halt.injEq] at h
    exact ⟨hn, hq.1, hq.2, h.symm⟩
  · rintro ⟨hn, h0, hq, rfl⟩
    have hc : ¬ X.cb.getD (X.cb_i - 1) 0 = ch ':' := by
      rcases hn with h | h <;> rw [h] <;> decide
    rw [if_neg hc, if_pos hn, if_pos ⟨h0, hq⟩]

theorem readable_enter (c : Int) (hk : readableKey c) :
    (toChar c = 10 ∨ toChar c = 13) ↔ (c = 10 ∨ c = 13) := by
  unfold readableKey DEL_KEY at hk
  unfold toChar
  constructor
  · rintro (h | h) <;> rcases hk with ⟨h1, h2⟩ | rfl <;> omega
  · rintro (rfl | rfl) <;> decide

/-- C20: in a state with a pending buffer, so in every state the program reaches, and for
every key `editorReadKey` can return, `editorProcessNormalKeypress` ends the process if and
only if the key is a newline (0x0a) or carriage return (0x0d) and the buffer before the key
holds at least two characters, the first `:` and the second `q`, whatever follows them; it
then ends it by the writes of `clearScreen` followed by `exit(0)`.  In a mode other than
Normal `editorProcessKeypress` returns for every key. -/
theorem C20_quit_exactly_on_colon_q :
    (∀ (E : editorConfig) (c : Int), (CbPending E ∨ Reachable E) → readableKey c →
      ((∃ t, editorProcessNormalKeypress c E = Outcome.halt t) ↔
        ((c = 10 ∨ c = 13) ∧ 2 ≤ E.cb_i ∧ E.cb.getD 0 0 = ch ':' ∧ E.cb.getD 1 0 = ch 'q')) ∧
      (∀ t, editorProcessNormalKeypress c E = Outcome.halt t →
        t = clearScreen ++ [Effect.exit 0])) ∧
    (∀ (E : editorConfig) (c : Int), E.state ≠ ST_NORMAL →
      ∃ E', editorProcessKeypress c E = Outcome.ret () E') := by
  constructor
  · intro E c hp hk
    have hcb : CbPending E := hp.elim id (reachable_cbPending E)
    have hlen := hcb.1
    have hi := hcb.2.1
    have hci := appendKey_cb_i c E hi
    have hlast : (appendKey c E).cb.getD ((appendKey c E).cb_i - 1) 0 = toChar c := by
      rw [hci]; exact appendKey_last c E hlen hi
    have e0 := appendKey_cb0 c E hlen hi
    have e1 := appendKey_cb1 c E hlen hi
    have hsw := fun t => suffixSwitch_halt_iff (appendKey c E) t (by omega) (by omega)
    have hen := readable_enter c hk
    have fwd : ∀ t, editorProcessNormalKeypress c E = Outcome.halt t →
        ((c = 10 ∨ c = 13) ∧ 2 ≤ E.cb_i ∧ E.cb.getD 0 0 = ch ':' ∧ E.cb.getD 1 0 = ch 'q') ∧
          t = clearScreen ++ [Effect.exit 0] := by
      intro t h
      obtain ⟨hs, _, _⟩ := normal_halt_suffix c E t h
      obtain ⟨hn, h0, hq, ht⟩ := (hsw t).mp hs
      rw [hlast] at hn
      rw [e0] at h0
      rw [e1] at hq
      have hz : ¬ E.cb_i = 0 := by
        intro hz
        simp only [hz, if_true] at h0
        rcases hn with h | h <;> rw [h] at h0 <;> revert h0 <;> decide
      simp only [hz, if_false] at h0 hq
      have ho : ¬ E.cb_i = 1 := by
        intro ho
        simp only [ho, if_true] at hq
        rcases hn with h | h <;> rw [h] at hq <;> revert hq <;> decide
      simp only [ho, if_false] at hq
      exact ⟨⟨hen.mp hn, by omega, h0, hq⟩, ht⟩
    refine ⟨⟨fun ⟨t, h⟩ => (fwd t h).1, ?_⟩, fun t h => (fwd t h).2⟩
    rintro ⟨hc, h2, h0, hq⟩
    have hn := hen.mpr hc
    have hz : ¬ E.cb_i = 0 := by omega
    have ho : ¬ E.cb_i = 1 := by omega
    simp only [hz, ho, if_false] at e0 e1
    refine ⟨clearScreen ++ [Effect.exit 0], ?_⟩
    rw [normal_pending_to_suffix c E hcb (by omega)
      (fun hg => absurd (h0.symm.trans hg) (by decide))]
    exact (hsw _).mpr ⟨by rw [hlast]; exact hn, by rw [e0]; exact h0, by rw [e1]; exact hq, rfl⟩
  · intro E c hs
    unfold editorProcessKeypress
    simp only [hs, if_false]
    exact ⟨_, rfl⟩

/-- C20 at the buffers `:qx` and `:wq` on the one-row file `a`, key carriage return: the
first ends the process, the second returns. -/
theorem C20_quit_exactly_on_colon_q_witness :
    (∃ t, editorProcessNormalKeypress 13 quitState = Outcome.halt t) ∧
    ¬ (∃ t, editorProcessNormalKeypress 13 writeQuitState = Outcome.halt t) ∧
    (∃ E', editorProcessKeypress 13 insertState = Outcome.ret () E') :=
  ⟨((C20_quit_exactly_on_colon_q.1 quitState 13 (Or.inl (by decide)) (by decide)).1).mpr
      (by decide),
   fun h => absurd
     (((C20_quit_exactly_on_colon_q.1 writeQuitState 13 (Or.inl (by decide)) (by decide)).1).mp h)
     (by decide),
   C20_quit_exactly_on_colon_q.2 insertState 13 (by decide)⟩

end Kilo
